import Mathlib

/-!
# GoLearn: channel programs as transition systems

A shallow embedding of the channel-based example programs of the repository
(`RateLimitingTokenBucket.go`, `WorkerPool.go`, `RateLimiting.go`,
`RateLimiting2.go`, `ClosingChannel.go`, `Tickers.go`,
`StatefulGoroutines2.go`), of its
shared-counter programs (`Mutexes.go`, `Mutexes2.go`, `AtomicCounter2.go`) and
of its pure functions (`IntMin`, `fact`, `fib`, `transition`).  A buffered Go
channel is a FIFO list with a capacity and a closed flag; a blocking operation
that cannot proceed is `none`; every goroutine is a step function and a
program is the interleaving of the steps of its goroutines, chosen by a list
of actions.  Go's `int` is `Int` with `wrapInt64` at every arithmetic
operation; recursion carries a bound on the depth of nested calls.
-/

namespace GoLearn

/-! ## Buffered channels -/

/-- A Go channel `make(chan α, cap)`: the queued values in FIFO order (head is
the oldest), the capacity, and whether `close` has been called. -/
structure Chan (α : Type) where
  buf : List α
  cap : Nat
  closed : Bool
deriving DecidableEq, Repr

/-- The channel `make(chan α, cap)`. -/
def Chan.make (α : Type) (cap : Nat) : Chan α := ⟨[], cap, false⟩

/-- The send `ch <- v`: appends `v` when the buffer has room; `none` when the
buffer is full, that is when the sender would block.  (No program modelled
here sends on a closed channel.) -/
def Chan.send {α : Type} (c : Chan α) (v : α) : Option (Chan α) :=
  if c.buf.length < c.cap then some { c with buf := c.buf ++ [v] } else none

/-- The receive `v, ok := <-ch`: the oldest queued value with `ok = true`; on a
closed and drained channel the zero value with `ok = false`; `none` when the
channel is empty and still open, that is when the receiver would block. -/
def Chan.recv {α : Type} (c : Chan α) (zero : α) : Option (α × Bool × Chan α) :=
  match c.buf with
  | v :: rest => some (v, true, { c with buf := rest })
  | [] => if c.closed then some (zero, false, c) else none

/-- The call `close(ch)`. -/
def Chan.close {α : Type} (c : Chan α) : Chan α := { c with closed := true }

/-! ## RateLimitingTokenBucket.go -/

/-- The constant `bucketSize := 3`. -/
def bucketSize : Nat := 3

/-- The number of requests of the loop `for i := 0; i < 5; i++`. -/
def numRequests : Nat := 5

/-- The inner `select` of the refill goroutine: `case tokens <- struct{}{}:`
when the send can proceed, otherwise `default:` (bucket is full, discard
token). -/
def refill (tokens : Chan Unit) : Chan Unit :=
  match tokens.send () with
  | some t => t
  | none => tokens

/-- State of `RateLimitingTokenBucket.go`: the `tokens` channel, the loop
counter `i` of main (the number of requests processed so far) and, as
instrumentation, the number of ticks the refill goroutine has received. -/
structure Bucket where
  tokens : Chan Unit
  i : Nat
  ticks : Nat
deriving DecidableEq, Repr

/-- The state after `tokens := make(chan struct{}, bucketSize)`: an empty
bucket, no request processed, no tick received. -/
def Bucket.init : Bucket := ⟨Chan.make Unit bucketSize, 0, 0⟩

/-- The two kinds of step of the program: the refill goroutine receives a tick
from `ticker.C`; main takes a token for its next request. -/
inductive BucketAct where
  | tick
  | take
deriving DecidableEq, Repr

/-- One step.  `tick`: the outer `select` receives from `ticker.C` and runs
the inner `select` (`refill`).  `take`: while `i < 5`, main executes
`<-tokens` (blocking when the bucket is empty), prints and increments `i`. -/
def Bucket.step (s : Bucket) : BucketAct → Option Bucket
  | .tick => some { s with tokens := refill s.tokens, ticks := s.ticks + 1 }
  | .take =>
    if s.i < numRequests then
      match s.tokens.recv () with
      | some (_, _, t) => some { s with tokens := t, i := s.i + 1 }
      | none => none
    else none

/-- Runs a sequence of steps; `none` when one of them is not enabled. -/
def Bucket.run : List BucketAct → Bucket → Option Bucket
  | [], s => some s
  | a :: rest, s =>
    match s.step a with
    | some t => Bucket.run rest t
    | none => none

/-! ### The refill loop as a select loop (with Tickers.go for comparison) -/

/-- What the environment can offer to a goroutine blocked in a `select`: a tick
on `ticker.C`, or a value on a `done` (stop) channel. -/
inductive Signal where
  | tick
  | stop
deriving DecidableEq, Repr

/-- State of the refill goroutine of `RateLimitingTokenBucket.go`: the `tokens`
channel it fills, whether it has returned, whether its deferred
`ticker.Stop()` has run. -/
structure RefillLoop where
  tokens : Chan Unit
  returned : Bool
  tickerStopped : Bool
deriving DecidableEq, Repr

/-- The refill goroutine when it starts, with an empty bucket. -/
def RefillLoop.start : RefillLoop := ⟨Chan.make Unit bucketSize, false, false⟩

/-- The loop of the refill goroutine: `for { select { case <-ticker.C: ... } }`.
Its only case receives from `ticker.C` and runs the inner `select` (`refill`);
no case receives a stop signal and the loop has no `return` or `break`, so the
deferred `ticker.Stop()` never runs.  `none`: the offered signal is not
received by the loop. -/
def refillLoopStep (s : RefillLoop) : Signal → Option RefillLoop
  | .tick => if s.returned then none else some { s with tokens := refill s.tokens }
  | .stop => none

/-- State of the goroutine of `Tickers.go`: the number of ticks it has printed,
whether it has returned. -/
structure TickersLoop where
  printed : Nat
  returned : Bool
deriving DecidableEq, Repr

/-- The goroutine of `Tickers.go` when it starts. -/
def TickersLoop.start : TickersLoop := ⟨0, false⟩

/-- The loop of the goroutine of `Tickers.go`:
`for { select { case <-done: return; case t := <-ticker.C: fmt.Println(...) } }`.
(The ticker itself is stopped by main, with `ticker.Stop()`, before it sends
on `done`.) -/
def tickersLoopStep (s : TickersLoop) : Signal → Option TickersLoop
  | .stop => if s.returned then none else some { s with returned := true }
  | .tick => if s.returned then none else some { s with printed := s.printed + 1 }

/-- Offers a sequence of signals to a loop; a signal the loop does not receive
leaves it as it is. -/
def offerAll {σ : Type} (step : σ → Signal → Option σ) : List Signal → σ → σ
  | [], s => s
  | g :: rest, s =>
    match step s g with
    | some t => offerAll step rest t
    | none => offerAll step rest s

/-! ## WorkerPool.go -/

/-- Arithmetic of Go's 64-bit `int`: the result wrapped to the signed range. -/
def wrapInt64 (x : Int) : Int := (x + 2 ^ 63) % 2 ^ 64 - 2 ^ 63

/-- The processing of a job by `worker`: the expression `j * 2` on `int`. -/
def process (j : Int) : Int := wrapInt64 (j * 2)

/-- Where a `worker` goroutine is: at the head of `for j := range jobs`;
holding job `j` (between its receive and `results <- j * 2`); returned. -/
inductive WState where
  | ranging
  | working (j : Int)
  | exited
deriving DecidableEq, Repr

/-- What the workers do, recorded in order as instrumentation: worker `w` claimed
job `j` from `jobs`; worker `w` emitted result `r` on `results`; worker `w`
acquired a permit from a token source.  `worker` has no operation of the third
kind: it is listed only so that properties about permits can be stated. -/
inductive Event where
  | claim (w : Nat) (j : Int)
  | emit (w : Nat) (r : Int)
  | acquire (w : Nat)
deriving DecidableEq, Repr

/-- One step of `worker(id, jobs, results)`.  At the loop head it receives from
`jobs`: a job is claimed ("started job"), or the channel is closed and drained
and the worker returns, or it blocks (`none`).  Holding a job it finishes it
and sends `j * 2` on `results`, blocking when `results` is full. -/
def workerStep (id : Nat) (st : WState) (jobs results : Chan Int) :
    Option (WState × Chan Int × Chan Int × List Event) :=
  match st with
  | .ranging =>
    match jobs.recv 0 with
    | some (j, true, jobs2) => some (.working j, jobs2, results, [.claim id j])
    | some (_, false, _) => some (.exited, jobs, results, [])
    | none => none
  | .working j =>
    match results.send (process j) with
    | some results2 => some (.ranging, jobs, results2, [.emit id (process j)])
    | none => none
  | .exited => none

/-- Runs one worker on its own for at most `fuel` steps, stopping early when it
has returned or blocks. -/
def runWorker (id : Nat) :
    Nat → WState × Chan Int × Chan Int × List Event → WState × Chan Int × Chan Int × List Event
  | 0, c => c
  | fuel + 1, (st, jobs, results, log) =>
    match workerStep id st jobs results with
    | some (st2, jobs2, results2, evs) => runWorker id fuel (st2, jobs2, results2, log ++ evs)
    | none => (st, jobs, results, log)

/-- The jobs of the claim events of a log, in order. -/
def claimedJobs : List Event → List Int
  | [] => []
  | .claim _ j :: rest => j :: claimedJobs rest
  | _ :: rest => claimedJobs rest

/-- The results of the emit events of a log, in order. -/
def emittedResults : List Event → List Int
  | [] => []
  | .emit _ r :: rest => r :: emittedResults rest
  | _ :: rest => emittedResults rest

/-- The number of permits worker `w` acquired according to a log. -/
def permitsAcquired (w : Nat) (log : List Event) : Nat :=
  (log.filter (fun e => decide (e = Event.acquire w))).length

/-- Where main of `WorkerPool.go` is: in the loop `for j := 1; j <= numJobs; j++`
before the send of `j` (or before `close(jobs)` once `j > numJobs`); in the
loop `for a := 1; a <= numJobs; a++` before the receive number `a`; returned. -/
inductive MainPc where
  | sending (j : Nat)
  | collecting (a : Nat)
  | exited
deriving DecidableEq, Repr

/-- State of `WorkerPool.go`: the two channels, the three workers, main, the
results main has printed and the event log. -/
structure Pool where
  jobs : Chan Int
  results : Chan Int
  workers : List WState
  main : MainPc
  received : List Int
  log : List Event
deriving DecidableEq, Repr

/-- The state after the two `make(chan int, numJobs)` and the start of workers
1, 2 and 3. -/
def Pool.init (numJobs : Nat) : Pool :=
  ⟨Chan.make Int numJobs, Chan.make Int numJobs, List.replicate 3 .ranging, .sending 1, [], []⟩

/-- The scheduler's choice: main, or the worker at index `w` (worker `w + 1`). -/
inductive PoolAct where
  | main
  | worker (w : Nat)
deriving DecidableEq, Repr

/-- One step of `WorkerPool.go`.  `numJobs` is the constant of the program
(10 there); `expected` is the bound of the collecting loop (`numJobs` there).
Once main has returned the program is over and no goroutine steps. -/
def Pool.step (numJobs expected : Nat) (s : Pool) : PoolAct → Option Pool
  | .main =>
    match s.main with
    | .sending j =>
      if j ≤ numJobs then
        match s.jobs.send (j : Int) with
        | some jobs2 => some { s with jobs := jobs2, main := .sending (j + 1) }
        | none => none
      else some { s with jobs := s.jobs.close, main := .collecting 1 }
    | .collecting a =>
      if a ≤ expected then
        match s.results.recv 0 with
        | some (r, _, results2) =>
          some { s with results := results2, received := s.received ++ [r],
                        main := .collecting (a + 1) }
        | none => none
      else some { s with main := .exited }
    | .exited => none
  | .worker w =>
    if s.main = .exited then none
    else
      match s.workers[w]? with
      | none => none
      | some st =>
        match workerStep (w + 1) st s.jobs s.results with
        | some (st2, jobs2, results2, evs) =>
          some { s with workers := s.workers.set w st2, jobs := jobs2, results := results2,
                        log := s.log ++ evs }
        | none => none

/-- Runs a schedule; `none` when it picks a step that is not enabled. -/
def Pool.run (numJobs expected : Nat) : List PoolAct → Pool → Option Pool
  | [], s => some s
  | a :: rest, s =>
    match s.step numJobs expected a with
    | some t => Pool.run numJobs expected rest t
    | none => none

/-- The jobs `from, from + 1, ...` (`len` of them) as Go ints. -/
def jobsFrom (start len : Nat) : List Int :=
  List.map (fun k : Nat => (k : Int)) (List.range' start len)

/-- The transitions of `WorkerPool.go`, one constructor for each way `Pool.step`
succeeds. -/
inductive Pool.Moves (n e : Nat) : Pool → Pool → Prop where
  | send (s : Pool) (j : Nat) (c : Chan Int) :
      s.main = .sending j → j ≤ n → s.jobs.send (j : Int) = some c →
      Pool.Moves n e s { s with jobs := c, main := .sending (j + 1) }
  | close (s : Pool) (j : Nat) :
      s.main = .sending j → n < j →
      Pool.Moves n e s { s with jobs := s.jobs.close, main := .collecting 1 }
  | collect (s : Pool) (a : Nat) (r : Int) (ok : Bool) (c : Chan Int) :
      s.main = .collecting a → a ≤ e → s.results.recv 0 = some (r, ok, c) →
      Pool.Moves n e s
        { s with results := c, received := s.received ++ [r], main := .collecting (a + 1) }
  | finish (s : Pool) (a : Nat) :
      s.main = .collecting a → e < a → Pool.Moves n e s { s with main := .exited }
  | claim (s : Pool) (w : Nat) (j : Int) (c : Chan Int) :
      s.main ≠ .exited → s.workers[w]? = some .ranging → s.jobs.recv 0 = some (j, true, c) →
      Pool.Moves n e s
        { s with workers := s.workers.set w (.working j), jobs := c,
                 log := s.log ++ [.claim (w + 1) j] }
  | leave (s : Pool) (w : Nat) (z : Int) (c : Chan Int) :
      s.main ≠ .exited → s.workers[w]? = some .ranging → s.jobs.recv 0 = some (z, false, c) →
      Pool.Moves n e s { s with workers := s.workers.set w .exited }
  | emit (s : Pool) (w : Nat) (j : Int) (c : Chan Int) :
      s.main ≠ .exited → s.workers[w]? = some (.working j) →
      s.results.send (process j) = some c →
      Pool.Moves n e s
        { s with workers := s.workers.set w .ranging, results := c,
                 log := s.log ++ [.emit (w + 1) (process j)] }

/-- The number of jobs main has sent so far. -/
def sentCount (n : Nat) : MainPc → Nat
  | .sending j => j - 1
  | _ => n

/-- The results still owed by a worker: the result of the job it holds. -/
def heldResult : WState → Multiset Int
  | .working j => {process j}
  | _ => 0

/-- The number of jobs a worker holds: 1 or 0. -/
def heldCount : WState → Nat
  | .working _ => 1
  | _ => 0

/-- What the invariant says about main: its loop counters are in range, `jobs`
is closed exactly when the sending loop is over, and the number of results
received matches the collecting loop's counter. -/
def Pool.mainOk (n e : Nat) (s : Pool) : Prop :=
  match s.main with
  | .sending j => 1 ≤ j ∧ j ≤ n + 1 ∧ s.jobs.closed = false ∧ s.received = []
  | .collecting a => 1 ≤ a ∧ a ≤ e + 1 ∧ s.jobs.closed = true ∧ s.received.length + 1 = a
  | .exited => s.jobs.closed = true ∧ s.received.length = e

/-- Invariant of `WorkerPool.go`: the claimed jobs followed by the queued jobs
are the jobs sent so far, in order; the results received, queued and owed by
the workers are the results of the claimed jobs; a worker has returned only
when `jobs` is closed and drained. -/
structure Pool.Inv (n e : Nat) (s : Pool) : Prop where
  jobsCap : s.jobs.cap = n
  resultsCap : s.results.cap = n
  resultsOpen : s.results.closed = false
  workersLen : s.workers.length = 3
  mainOk : s.mainOk n e
  fifo : claimedJobs s.log ++ s.jobs.buf = jobsFrom 1 (sentCount n s.main)
  account : (↑s.received + ↑s.results.buf + (s.workers.map heldResult).sum : Multiset Int)
    = ↑((claimedJobs s.log).map process)
  count : s.received.length + s.results.buf.length + (s.workers.map heldCount).sum
    = (claimedJobs s.log).length
  gone : WState.exited ∈ s.workers → s.jobs.closed = true ∧ s.jobs.buf = []

/-- Rank of main for the termination measure. -/
def mainRank (n e : Nat) : MainPc → Nat
  | .sending j => 4 * (n + 1 - j) + e + 2
  | .collecting a => (e + 1 - a) + 1
  | .exited => 0

/-- Rank of a worker for the termination measure. -/
def workerRank : WState → Nat
  | .ranging => 1
  | .working _ => 3
  | .exited => 0

/-- Termination measure of `WorkerPool.go`: every step makes it smaller. -/
def Pool.measure (n e : Nat) (s : Pool) : Nat :=
  mainRank n e s.main + 3 * s.jobs.buf.length + (s.workers.map workerRank).sum
    + s.results.buf.length

/-- Invariant kept by every step of the bucket program. -/
def Bucket.Inv (s : Bucket) : Prop :=
  s.tokens.cap = bucketSize ∧ s.tokens.buf.length ≤ bucketSize ∧
    s.i + s.tokens.buf.length ≤ s.ticks ∧ s.i ≤ numRequests ∧ s.tokens.closed = false

/-- A schedule of `WorkerPool.go` with two jobs: main sends both and closes,
workers 1 and 2 claim and process one job each, main collects. -/
def poolSchedule : List PoolAct :=
  [.main, .main, .main, .worker 0, .worker 1, .worker 0, .worker 1, .main, .main, .main]

/-- The state `poolSchedule` ends in. -/
def poolFinal : Pool :=
  ⟨⟨[], 2, true⟩, ⟨[], 2, false⟩, [.ranging, .ranging, .ranging], .exited, [2, 4],
    [.claim 1 1, .claim 2 2, .emit 1 2, .emit 2 4]⟩

/-- Second invariant of `WorkerPool.go`, about the event log: every emitted
result is the result of a job the same worker claimed, a worker that holds a
job has claimed it, and no permit was ever acquired. -/
structure Pool.LogInv (s : Pool) : Prop where
  emitted : ∀ w r, Event.emit w r ∈ s.log → ∃ j, Event.claim w j ∈ s.log ∧ r = process j
  held : ∀ (i : Nat) (j : Int), s.workers[i]? = some (WState.working j) →
    Event.claim (i + 1) j ∈ s.log
  noPermit : ∀ w, Event.acquire w ∉ s.log

/-- The events of a worker that claims and processes the jobs `js` one after the
other. -/
def workerTrace (id : Nat) (js : List Int) : List Event :=
  js.flatMap (fun j => [Event.claim id j, Event.emit id (process j)])

/-! ## RateLimiting.go, the bursty limiter -/

/-- State of the second half of `RateLimiting.go`.  Values of type `time.Time`
are tick numbers: the three values of the pre-fill are 0, the k-th tick of
`time.Tick` is k.
* `tickC` is the channel returned by `time.Tick` (the runtime gives it one slot
  and drops a tick that finds it full), `fired` the number of ticks fired;
* `refillPc` is where the refill goroutine is: `none` at
  `for t := range time.Tick(...)`, `some t` at `burstyLimiter <- t`;
* `mainPc` is where main is: `none` at `for req := range burstyRequests`,
  `some req` at `<-burstyLimiter`; `exited` once the loop is over;
* `served` lists the requests printed, `delivered` counts the values the refill
  goroutine has put into `burstyLimiter`. -/
structure Bursty where
  tickC : Chan Nat
  fired : Nat
  refillPc : Option Nat
  burstyLimiter : Chan Nat
  burstyRequests : Chan Int
  mainPc : Option Int
  exited : Bool
  served : List Int
  delivered : Nat
deriving DecidableEq, Repr

/-- The state after `burstyLimiter` has been filled with 3 values, the refill
goroutine started, and `burstyRequests` filled with 1..4 and closed. -/
def Bursty.init : Bursty :=
  ⟨Chan.make Nat 1, 0, none, ⟨[0, 0, 0], 3, false⟩, ⟨[1, 2, 3, 4], 5, true⟩, none, false, [], 0⟩

/-- The scheduler's choice: the runtime timer fires, the refill goroutine
steps, main steps. -/
inductive BurstyAct where
  | tick
  | refill
  | main
deriving DecidableEq, Repr

/-- One step of the bursty half of `RateLimiting.go`. -/
def Bursty.step (s : Bursty) : BurstyAct → Option Bursty
  | .tick =>
    if s.exited then none
    else
      match s.tickC.send (s.fired + 1) with
      | some c => some { s with tickC := c, fired := s.fired + 1 }
      | none => some { s with fired := s.fired + 1 }
  | .refill =>
    if s.exited then none
    else
      match s.refillPc with
      | none =>
        match s.tickC.recv 0 with
        | some (t, _, c) => some { s with tickC := c, refillPc := some t }
        | none => none
      | some t =>
        match s.burstyLimiter.send t with
        | some c => some { s with burstyLimiter := c, refillPc := none,
                                  delivered := s.delivered + 1 }
        | none => none
  | .main =>
    if s.exited then none
    else
      match s.mainPc with
      | none =>
        match s.burstyRequests.recv 0 with
        | some (req, true, c) => some { s with burstyRequests := c, mainPc := some req }
        | some (_, false, _) => some { s with exited := true }
        | none => none
      | some req =>
        match s.burstyLimiter.recv 0 with
        | some (_, _, c) =>
          some { s with burstyLimiter := c, mainPc := none, served := s.served ++ [req] }
        | none => none

/-- Runs a schedule; `none` when it picks a step that is not enabled. -/
def Bursty.run : List BurstyAct → Bursty → Option Bursty
  | [], s => some s
  | a :: rest, s =>
    match s.step a with
    | some t => Bursty.run rest t
    | none => none

/-- Invariant of the bursty limiter: the values in `burstyLimiter` plus the
requests served are the 3 pre-filled values plus the values delivered by the
refill goroutine; the requests are served in order. -/
structure Bursty.Inv (s : Bursty) : Prop where
  limCap : s.burstyLimiter.cap = 3
  limOpen : s.burstyLimiter.closed = false
  limLen : s.burstyLimiter.buf.length ≤ 3
  balance : s.burstyLimiter.buf.length + s.served.length = 3 + s.delivered
  reqClosed : s.burstyRequests.closed = true
  order : s.served ++ s.mainPc.toList ++ s.burstyRequests.buf = [1, 2, 3, 4]
  over : s.exited = true → s.mainPc = none ∧ s.burstyRequests.buf = []

/-! ## RateLimiting.go (first loop) and RateLimiting2.go, with a clock -/

/-- State of the loop `<-limiter; fmt.Println(..., time.Now())` of
`RateLimiting.go` (first loop, `limiter := time.Tick(200 * time.Millisecond)`)
and of `RateLimiting2.go` (`ticker := time.NewTicker(rate)`, `<-ticker.C`).
Times are nanoseconds since the ticker was created.
* `now` is the reading of the clock;
* `fired` counts the ticks of the ticker so far; the tick number `k` is due at
  the time `k * interval` and is not sent before it is due;
* `tickC` is the ticker's channel (the runtime gives it one slot and drops a
  tick that finds it full); a tick is the time at which it was sent;
* `got` is where main is: `none` at the receive `<-limiter`, `some t` between
  the receive of the tick `t` and the print;
* `served` lists, for every request printed, the tick main received for it and
  the time `time.Now()` that was printed. -/
structure Limiter where
  now : Nat
  fired : Nat
  tickC : Chan Nat
  got : Option Nat
  served : List (Nat × Nat)
deriving DecidableEq, Repr

/-- The state right after `time.Tick(...)`, resp. `time.NewTicker(rate)`. -/
def Limiter.init : Limiter := ⟨0, 0, Chan.make Nat 1, none, []⟩

/-- The steps: `d` nanoseconds pass; the ticker ticks; main receives from the
limiter; main prints the request with `time.Now()`. -/
inductive LimiterAct where
  | wait (d : Nat)
  | tick
  | recv
  | print
deriving DecidableEq, Repr

/-- One step of the loop with a ticker of period `interval` and `requests`
iterations (4 in `RateLimiting.go`, where `requests` holds 1..4 and is closed;
20 in `RateLimiting2.go`).  A tick is sent when it is due or later, never
earlier; it is dropped when the channel still holds the one before.  The
receive blocks while the channel is empty. -/
def Limiter.step (interval requests : Nat) (s : Limiter) : LimiterAct → Option Limiter
  | .wait d => some { s with now := s.now + d }
  | .tick =>
    if (s.fired + 1) * interval ≤ s.now then
      match s.tickC.send s.now with
      | some c => some { s with tickC := c, fired := s.fired + 1 }
      | none => some { s with fired := s.fired + 1 }
    else none
  | .recv =>
    match s.got with
    | none =>
      if s.served.length < requests then
        match s.tickC.recv 0 with
        | some (t, _, c) => some { s with tickC := c, got := some t }
        | none => none
      else none
    | some _ => none
  | .print =>
    match s.got with
    | some t => some { s with got := none, served := s.served ++ [(t, s.now)] }
    | none => none

/-- Runs a schedule; `none` when it picks a step that is not enabled. -/
def Limiter.run (interval requests : Nat) : List LimiterAct → Limiter → Option Limiter
  | [], s => some s
  | a :: rest, s =>
    match s.step interval requests a with
    | some t => Limiter.run interval requests rest t
    | none => none

/-- Invariant of the limiter loop: every request served or in progress and
every tick waiting in the channel is one tick of the ticker; the tick received
for the request number `i + 1` was sent at the time `(i + 1) * interval` or
later, and the request is printed after that; the print times do not
decrease. -/
structure Limiter.Inv (interval requests : Nat) (s : Limiter) : Prop where
  cap : s.tickC.cap = 1
  isOpen : s.tickC.closed = false
  len : s.tickC.buf.length ≤ 1
  count : s.served.length + s.got.toList.length + s.tickC.buf.length ≤ s.fired
  bound : s.served.length + s.got.toList.length ≤ requests
  due : s.fired * interval ≤ s.now
  bufStamp : ∀ t ∈ s.tickC.buf,
    (s.served.length + s.got.toList.length + 1) * interval ≤ t ∧ t ≤ s.now
  gotStamp : ∀ t ∈ s.got, (s.served.length + 1) * interval ≤ t ∧ t ≤ s.now
  servedStamp : ∀ (i : Nat) (e : Nat × Nat), s.served[i]? = some e →
    (i + 1) * interval ≤ e.1 ∧ e.1 ≤ e.2 ∧ e.2 ≤ s.now
  ordered : s.served.Pairwise (fun a b => a.2 ≤ b.2)

/-- The times printed by the first loop of `RateLimiting.go` in the output
recorded at the end of the file: the readings `m=+0.201267376` ... of the
program's monotonic clock, in nanoseconds.  The clock starts with the program,
which creates the limiter at once; the readings are taken as times since the
limiter was created. -/
def recordedRateLimiting : List Nat := [201267376, 401365667, 601321667, 801292876]

/-- The times printed by `RateLimiting2.go` in the output recorded at the end
of the file: the readings `m=+1.001190210` ... of the monotonic clock, in
nanoseconds, as for `recordedRateLimiting`. -/
def recordedRateLimiting2 : List Nat :=
  [1001190210, 2001252460, 3001207293, 4001151210, 5001204126, 6001183585, 7001202960,
    8001224168, 9000715960, 10002007626, 11001200085, 12001193501, 13001186043,
    14000968543, 15000686585, 16001179460, 17001206335, 18001183668, 19001181751,
    20000436126]

/-- A schedule that prints at the given times: for the request number `k`, time
passes until the tick number `k` is due, the ticker ticks, main receives the
tick, time passes until the print time, main prints.  `prev` is the time
reached before. -/
def replay (interval : Nat) : Nat → Nat → List Nat → List LimiterAct
  | _, _, [] => []
  | k, prev, p :: rest =>
    [.wait (k * interval - prev), .tick, .recv, .wait (p - k * interval), .print]
      ++ replay interval (k + 1) p rest

/-! ## ClosingChannel.go -/

/-- Where main of `ClosingChannel.go` is: in the loop `for j := 1; j <= 3; j++`
before the send of `j` (or before `close(jobs)`); at `<-done`; at the final
`_, ok := <-jobs`; returned. -/
inductive CMain where
  | sending (j : Nat)
  | awaitDone
  | lastRecv
  | exited
deriving DecidableEq, Repr

/-- Where the worker goroutine is: at `j, more := <-jobs`; at `done <- true`;
returned. -/
inductive CWorker where
  | looping
  | signalling
  | returned
deriving DecidableEq, Repr

/-- State of `ClosingChannel.go`: the `jobs` channel, main, the worker, the
pairs `(j, more)` the worker has received so far, and the pair main's final
receive gave.  The channel `done` is unbuffered: a send on it and the receive
from it happen together, as one step. -/
structure Closing where
  jobs : Chan Int
  main : CMain
  worker : CWorker
  seen : List (Int × Bool)
  last : Option (Int × Bool)
deriving DecidableEq, Repr

/-- The state after `jobs := make(chan int, 5)` and the start of the worker. -/
def Closing.init : Closing := ⟨Chan.make Int 5, .sending 1, .looping, [], none⟩

/-- The scheduler's choice. -/
inductive ClosingAct where
  | main
  | worker
deriving DecidableEq, Repr

/-- One step of `ClosingChannel.go` with `n` jobs sent before the close (3 in
the program).  Once main has returned the program is over. -/
def Closing.step (n : Nat) (s : Closing) : ClosingAct → Option Closing
  | .main =>
    match s.main with
    | .sending j =>
      if j ≤ n then
        match s.jobs.send (j : Int) with
        | some c => some { s with jobs := c, main := .sending (j + 1) }
        | none => none
      else some { s with jobs := s.jobs.close, main := .awaitDone }
    | .awaitDone =>
      match s.worker with
      | .signalling => some { s with main := .lastRecv, worker := .returned }
      | _ => none
    | .lastRecv =>
      match s.jobs.recv 0 with
      | some (v, ok, c) => some { s with jobs := c, last := some (v, ok), main := .exited }
      | none => none
    | .exited => none
  | .worker =>
    if s.main = .exited then none
    else
      match s.worker with
      | .looping =>
        match s.jobs.recv 0 with
        | some (j, true, c) => some { s with jobs := c, seen := s.seen ++ [(j, true)] }
        | some (z, false, _) =>
          some { s with seen := s.seen ++ [(z, false)], worker := .signalling }
        | none => none
      | .signalling =>
        match s.main with
        | .awaitDone => some { s with main := .lastRecv, worker := .returned }
        | _ => none
      | .returned => none

/-- Runs a schedule; `none` when it picks a step that is not enabled. -/
def Closing.run (n : Nat) : List ClosingAct → Closing → Option Closing
  | [], s => some s
  | a :: rest, s =>
    match s.step n a with
    | some t => Closing.run n rest t
    | none => none

/-- The number of jobs main of `ClosingChannel.go` has sent so far. -/
def closingSent (n : Nat) : CMain → Nat
  | .sending j => j - 1
  | _ => n

/-- What the worker has seen once it has received all `n` jobs and the close. -/
def allSeen (n : Nat) : List (Int × Bool) :=
  (jobsFrom 1 n).map (fun j => (j, true)) ++ [(0, false)]

/-- What the invariant says about main of `ClosingChannel.go`. -/
def Closing.mainOk (n : Nat) (s : Closing) : Prop :=
  match s.main with
  | .sending j => 1 ≤ j ∧ j ≤ n + 1 ∧ s.jobs.closed = false ∧ s.worker = .looping ∧ s.last = none
  | .awaitDone => s.jobs.closed = true ∧ s.worker ≠ .returned ∧ s.last = none
  | .lastRecv => s.jobs.closed = true ∧ s.worker = .returned ∧ s.last = none
  | .exited => s.jobs.closed = true ∧ s.worker = .returned ∧ s.last = some (0, false)

/-- What the invariant says about the worker of `ClosingChannel.go`. -/
def Closing.workerOk (n : Nat) (s : Closing) : Prop :=
  match s.worker with
  | .looping =>
    s.seen.map Prod.fst ++ s.jobs.buf = jobsFrom 1 (closingSent n s.main) ∧
      ∀ p ∈ s.seen, p.2 = true
  | _ => s.jobs.closed = true ∧ s.jobs.buf = [] ∧ s.seen = allSeen n

/-- Invariant of `ClosingChannel.go`. -/
structure Closing.Inv (n : Nat) (s : Closing) : Prop where
  jobsCap : s.jobs.cap = 5
  mainOk : s.mainOk n
  workerOk : s.workerOk n

/-- Rank of main for the termination measure of `ClosingChannel.go`. -/
def closingMainRank (n : Nat) : CMain → Nat
  | .sending j => 2 * (n + 1 - j) + 3
  | .awaitDone => 2
  | .lastRecv => 1
  | .exited => 0

/-- Rank of the worker for the termination measure of `ClosingChannel.go`. -/
def closingWorkerRank : CWorker → Nat
  | .looping => 2
  | .signalling => 1
  | .returned => 0

/-- Termination measure of `ClosingChannel.go`. -/
def Closing.measure (n : Nat) (s : Closing) : Nat :=
  closingMainRank n s.main + s.jobs.buf.length + closingWorkerRank s.worker

/-- A schedule of `ClosingChannel.go` as written (3 jobs): main sends the three
jobs and closes, the worker receives them and the close, the two meet on
`done`, main does its final receive. -/
def closingSchedule : List ClosingAct :=
  [.main, .main, .main, .main, .worker, .worker, .worker, .worker, .main, .main]

/-- The state `closingSchedule` ends in. -/
def closingFinal : Closing :=
  ⟨⟨[], 5, true⟩, .exited, .returned, [(1, true), (2, true), (3, true), (0, false)],
    some (0, false)⟩

/-! ## TestingAndBenchmarking.go -/

/-- The function `IntMin(a, b int) int`. -/
def IntMin (a b : Int) : Int := if a < b then a else b

/-! ## Recursion.go -/

/-- An upper bound on the depth of nested calls a Go program reaches: the runtime
ends a goroutine with a fatal stack overflow once its stack exceeds
1 000 000 000 bytes (the limit on 64-bit systems, which this program does not
change), and every activation takes at least one 8-byte word.  The depth the
stack really admits is smaller and depends on the compiled frame size, which
the source does not tell; this constant only bounds it from above. -/
def maxCallDepth : Nat := 125000000

/-- The function `fact(num int) int`: `1` when `num == 0`, else
`num * fact(num - 1)`, with Go's 64-bit arithmetic.  The first argument is the
number of nested activations of `fact` the stack still admits:
`fact depth num` is `none` when the call needs more than `depth` nested
activations, which is when the program ends in a fatal stack overflow instead
of returning.  That `fact` returns a value is stated only at a depth a Go stack
admits; that it returns none is stated for every depth up to `maxCallDepth`. -/
def fact : Nat → Int → Option Int
  | 0, _ => none
  | fuel + 1, num =>
    if num = 0 then some 1
    else
      match fact fuel (wrapInt64 (num - 1)) with
      | some r => some (wrapInt64 (num * r))
      | none => none

/-- The closure `fib` of `main`: `n` when `n < 2`, else `fib(n-1) + fib(n-2)`,
with Go's 64-bit arithmetic; the first argument is the number of nested
activations the stack still admits, as for `fact`: `none` is a call that ends
in a fatal stack overflow instead of returning.  `fib(n)` for `n ≥ 2` nests
`n` activations. -/
def fib : Nat → Int → Option Int
  | 0, _ => none
  | fuel + 1, n =>
    if n < 2 then some n
    else
      match fib fuel (wrapInt64 (n - 1)), fib fuel (wrapInt64 (n - 2)) with
      | some a, some b => some (wrapInt64 (a + b))
      | _, _ => none

/-! ## Enums.go -/

/-- The constant `StateIdle` (`iota`, 0). -/
def StateIdle : Int := 0

/-- The constant `StateConnected` (1). -/
def StateConnected : Int := 1

/-- The constant `StateError` (2). -/
def StateError : Int := 2

/-- The constant `StateRetrying` (3). -/
def StateRetrying : Int := 3

/-- The function `transition(s ServerState) ServerState`; `ServerState` has
underlying type `int`.  The `default` branch panics with
`fmt.Errorf("unknown state: %s", s)`, where `s.String()` is `stateName[s]`, the
empty string for a state outside the table: `Except.error`. -/
def transition (s : Int) : Except String Int :=
  if s = StateIdle then .ok StateConnected
  else if s = StateConnected ∨ s = StateRetrying then .ok StateIdle
  else if s = StateError then .ok StateError
  else .error "unknown state: "

/-- A schedule of the `WorkerPool.go` pattern with one job and a collecting loop
that waits for two results: main sends and closes, worker 1 processes the job
and returns, workers 2 and 3 return, main receives the one result. -/
def hangSchedule : List PoolAct :=
  [.main, .main, .worker 0, .worker 0, .worker 0, .worker 1, .worker 2, .main]

/-- The state `hangSchedule` ends in: main waits for a second result. -/
def hangFinal : Pool :=
  ⟨⟨[], 1, true⟩, ⟨[], 1, false⟩, [.exited, .exited, .exited], .collecting 2, [2],
    [.claim 1 1, .emit 1 2]⟩

/-! ## StatefulGoroutines2.go -/

/-- The struct `CounterCommand`.  The channel `response` is `none` when it is
nil (as in `CounterCommand{increment: true}`) and `some c` for the channel
numbered `c`. -/
structure CounterCommand where
  increment : Bool
  get : Bool
  response : Option Nat
deriving DecidableEq, Repr

/-- The stateful goroutine, from the value `counter` of its state, on the
commands it receives from `cmdChan` in order (`for cmd := range cmdChan`).
The result has one entry for each command handled: `some (c, v)` when the value
`v` was sent on the response channel `c`, `none` when nothing was sent.  A
`get` with a nil response channel blocks the goroutine for ever: the list ends
there.  (A reply is taken by the client, as main does with `<-respChan`.) -/
def counterLoop : Int → List CounterCommand → List (Option (Nat × Int))
  | _, [] => []
  | counter, cmd :: rest =>
    let counter2 := if cmd.increment then wrapInt64 (counter + 1) else counter
    if cmd.get then
      match cmd.response with
      | some ch => some (ch, counter2) :: counterLoop counter2 rest
      | none => []
    else none :: counterLoop counter2 rest

/-- The commands main sends: increment, get, increment, get (both gets with
`respChan`, channel 0). -/
def mainCommands : List CounterCommand :=
  [⟨true, false, none⟩, ⟨false, true, some 0⟩, ⟨true, false, none⟩, ⟨false, true, some 0⟩]

/-- Following the words of the claim: the number of commands with
`increment = true` among the commands up to and including the one at index
`i`. -/
def incrementsUpTo (cmds : List CounterCommand) (i : Nat) : Nat :=
  ((cmds.take (i + 1)).filter (fun cmd => cmd.increment)).length

/-! ## Mutexes.go and Mutexes2.go -/

/-- The lookup `m[name]` in a map `map[string]int`, kept as an association
list: the zero value when the key is absent. -/
def mapGet : List (String × Int) → String → Int
  | [], _ => 0
  | (k, v) :: rest, name => if k = name then v else mapGet rest name

/-- The store `m[name] = v`. -/
def mapSet : List (String × Int) → String → Int → List (String × Int)
  | [], name, v => [(name, v)]
  | (k, w) :: rest, name, v =>
    if k = name then (k, v) :: rest else (k, w) :: mapSet rest name v

/-- A goroutine `doInc(name, n)` (`isInc = true`) or `doDec(name, n)`. -/
structure Task where
  name : String
  isInc : Bool
  n : Nat
deriving DecidableEq, Repr

/-- Where a `doInc`/`doDec` goroutine is: at the loop head with loop counter `i`
(next it calls `c.inc`/`c.dec`, whose first statement is `c.mu.Lock()`, or,
when `i < n` fails, `wg.Done()`); inside the call after `Lock`; after reading
`v = c.counters[name]`; after storing the new value, before the deferred
`c.mu.Unlock()`; after `wg.Done()`. -/
inductive GPc where
  | loop (i : Nat)
  | locked (i : Nat)
  | read (i : Nat) (v : Int)
  | wrote (i : Nat)
  | done
deriving DecidableEq, Repr

/-- State of `Mutexes.go`: the map `c.counters`, the mutex `c.mu` (`none` when
unlocked, `some g` when locked, `g` being the goroutine that locked it, kept
as instrumentation), and the goroutines with their tasks. -/
structure MutexSys where
  counters : List (String × Int)
  mu : Option Nat
  gs : List (Task × GPc)
deriving DecidableEq, Repr

/-- The state after the goroutines have been started: counters with the given
keys all 0, mutex unlocked, every goroutine at the head of its loop. -/
def MutexSys.init (keys : List String) (tasks : List Task) : MutexSys :=
  ⟨keys.map (fun k => (k, 0)), none, tasks.map (fun t => (t, GPc.loop 0))⟩

/-- One step of goroutine `g`.  `Lock` blocks (`none`) while the mutex is
locked; `c.counters[name]++` and `c.counters[name] = c.counters[name] - 1` are
a read followed by a store, with Go's 64-bit arithmetic. -/
def MutexSys.step (s : MutexSys) (g : Nat) : Option MutexSys :=
  match s.gs[g]? with
  | none => none
  | some (t, pc) =>
    match pc with
    | .loop i =>
      if i < t.n then
        match s.mu with
        | none => some { s with mu := some g, gs := s.gs.set g (t, .locked i) }
        | some _ => none
      else some { s with gs := s.gs.set g (t, .done) }
    | .locked i => some { s with gs := s.gs.set g (t, .read i (mapGet s.counters t.name)) }
    | .read i v =>
      some { s with
        counters := mapSet s.counters t.name (wrapInt64 (if t.isInc then v + 1 else v - 1)),
        gs := s.gs.set g (t, .wrote i) }
    | .wrote i => some { s with mu := none, gs := s.gs.set g (t, .loop (i + 1)) }
    | .done => none

/-- Runs a schedule (the goroutine to step, one after the other); `none` when
it picks a step that is not enabled. -/
def MutexSys.run : List Nat → MutexSys → Option MutexSys
  | [], s => some s
  | g :: rest, s =>
    match s.step g with
    | some t => MutexSys.run rest t
    | none => none

/-- All goroutines have called `wg.Done()`: `wg.Wait()` returns and main reads
the counters. -/
def MutexSys.allDone (s : MutexSys) : Prop := ∀ p ∈ s.gs, p.2 = GPc.done

/-- The five goroutines of main in `Mutexes.go`. -/
def mutexesTasks : List Task :=
  [⟨"a", true, 10000⟩, ⟨"a", false, 290⟩, ⟨"a", true, 10000⟩, ⟨"b", false, 201⟩,
    ⟨"b", true, 10000⟩]

/-- The goroutines of `Mutexes2.go`: `n` goroutines (`numGoroutines` is 10), each
running `mu.Lock(); counter++; mu.Unlock(); wg.Done()`, which is one iteration
of an incrementing task on the one variable `counter`. -/
def mutexes2Tasks (n : Nat) : List Task := List.replicate n ⟨"counter", true, 1⟩

/-- The number of calls task `t` makes that count for key `k`, with sign: `n`
for `doInc(k, n)`, `-n` for `doDec(k, n)`, 0 for another key. -/
def Task.net (k : String) (t : Task) : Int :=
  if t.name = k then (if t.isInc then (t.n : Int) else -(t.n : Int)) else 0

/-- The number of `inc` calls minus the number of `dec` calls on key `k` made by
the tasks. -/
def netCalls (tasks : List Task) (k : String) : Int := (tasks.map (Task.net k)).sum

/-- The total number of calls of the tasks. -/
def totalCalls (tasks : List Task) : Nat := (tasks.map Task.n).sum

/-- Whether a goroutine is between `Lock` and `Unlock`. -/
def GPc.inCrit : GPc → Bool
  | .locked _ => true
  | .read _ _ => true
  | .wrote _ => true
  | _ => false

/-- The number of calls a goroutine has completed (its store is done). -/
def completed (t : Task) : GPc → Nat
  | .loop i => i
  | .locked i => i
  | .read i _ => i
  | .wrote i => i + 1
  | .done => t.n

/-- What a goroutine has added so far to the counter of key `k`. -/
def contrib (k : String) (p : Task × GPc) : Int :=
  if p.1.name = k then (if p.1.isInc then (completed p.1 p.2 : Int) else -(completed p.1 p.2 : Int))
  else 0

/-- The loop counter of a goroutine is in range. -/
def pcOk (t : Task) : GPc → Prop
  | .loop i => i ≤ t.n
  | .locked i => i < t.n
  | .read i _ => i < t.n
  | .wrote i => i < t.n
  | .done => True

/-- Rank of a goroutine for the termination measure. -/
def gRank (p : Task × GPc) : Nat :=
  match p.2 with
  | .loop i => 4 * (p.1.n - i) + 1
  | .locked i => 4 * (p.1.n - i)
  | .read i _ => 4 * (p.1.n - i) - 1
  | .wrote i => 4 * (p.1.n - i) - 2
  | .done => 0

/-- Termination measure of the mutex programs. -/
def MutexSys.measure (s : MutexSys) : Nat := (s.gs.map gRank).sum

/-- Invariant of the mutex programs: the mutex is locked by `g` exactly when
goroutine `g` is between `Lock` and `Unlock`; a value read under the lock is
still the current one; every counter is the sum of what the goroutines have
added to it; the keys of the map do not change when all tasks use them. -/
structure MutexSys.Inv (keys : List String) (tasks : List Task) (s : MutexSys) : Prop where
  tasksOk : s.gs.map Prod.fst = tasks
  holder : ∀ (g : Nat) (t : Task) (pc : GPc), s.gs[g]? = some (t, pc) →
    (pc.inCrit = true ↔ s.mu = some g)
  held : ∀ g : Nat, s.mu = some g → ∃ t pc, s.gs[g]? = some (t, pc) ∧ pc.inCrit = true
  bounds : ∀ (g : Nat) (t : Task) (pc : GPc), s.gs[g]? = some (t, pc) → pcOk t pc
  fresh : ∀ (g : Nat) (t : Task) (i : Nat) (v : Int), s.gs[g]? = some (t, GPc.read i v) →
    v = mapGet s.counters t.name
  account : ∀ k, mapGet s.counters k = (s.gs.map (contrib k)).sum
  keysOk : (∀ t ∈ tasks, t.name ∈ keys) → s.counters.map Prod.fst = keys

/-! ## AtomicCounter2.go -/

/-- Where a goroutine of `AtomicCounter2.go` is: before
`atomic.AddInt64(&counter, 1)`; after it, before `wg.Done()`; after
`wg.Done()`. -/
inductive APc where
  | start
  | added
  | done
deriving DecidableEq, Repr

/-- State of `AtomicCounter2.go`: the variable `counter` and the goroutines. -/
structure AtomicSys where
  counter : Int
  gs : List APc
deriving DecidableEq, Repr

/-- The state after the `n` goroutines have been started (`numGoroutines` is
10 in the program). -/
def AtomicSys.init (n : Nat) : AtomicSys := ⟨0, List.replicate n .start⟩

/-- One step of goroutine `g`: the atomic add, as one indivisible step on the
64-bit counter, then `wg.Done()`. -/
def AtomicSys.step (s : AtomicSys) (g : Nat) : Option AtomicSys :=
  match s.gs[g]? with
  | some .start => some ⟨wrapInt64 (s.counter + 1), s.gs.set g .added⟩
  | some .added => some { s with gs := s.gs.set g .done }
  | _ => none

/-- Runs a schedule; `none` when it picks a step that is not enabled. -/
def AtomicSys.run : List Nat → AtomicSys → Option AtomicSys
  | [], s => some s
  | g :: rest, s =>
    match s.step g with
    | some t => AtomicSys.run rest t
    | none => none

/-- All goroutines have called `wg.Done()`: `wg.Wait()` returns. -/
def AtomicSys.allDone (s : AtomicSys) : Prop := ∀ p ∈ s.gs, p = APc.done

/-- Whether a goroutine has done its add: 1 or 0. -/
def counted : APc → Nat
  | .start => 0
  | _ => 1

/-- Rank of a goroutine of `AtomicCounter2.go` for the termination measure. -/
def aRank : APc → Nat
  | .start => 2
  | .added => 1
  | .done => 0

/-- A schedule of the mutex program with the tasks `doInc("a", 2)` and
`doDec("b", 1)`: the first goroutine runs one call, the second its call, the
first its second call, then both call `wg.Done()`. -/
def mutexSchedule : List Nat := [0, 0, 0, 0, 1, 1, 1, 1, 0, 0, 0, 0, 0, 1]

/-- The state `mutexSchedule` ends in. -/
def mutexFinal : MutexSys :=
  ⟨[("a", 2), ("b", -1)], none, [(⟨"a", true, 2⟩, .done), (⟨"b", false, 1⟩, .done)]⟩

/-- Invariant of `AtomicCounter2.go` with `n` goroutines: the counter is the
number of goroutines that have done their add. -/
def AtomicSys.Inv (n : Nat) (s : AtomicSys) : Prop :=
  s.counter = (((s.gs.map counted).sum : Nat) : Int) ∧ s.gs.length = n

/-- Termination measure of `AtomicCounter2.go`. -/
def AtomicSys.measure (s : AtomicSys) : Nat := (s.gs.map aRank).sum

/-! ## Theorems -/

/-! ### Channels -/

theorem chan_send_some {α : Type} (c d : Chan α) (v : α) (h : c.send v = some d) :
    d.buf = c.buf ++ [v] ∧ d.cap = c.cap ∧ d.closed = c.closed ∧ c.buf.length < c.cap := by
  unfold Chan.send at h
  split at h
  · cases h; exact ⟨rfl, rfl, rfl, by assumption⟩
  · cases h

theorem chan_recv_closed_nil {α : Type} (c : Chan α) (zero : α)
    (h : c.buf = []) (hc : c.closed = true) : c.recv zero = some (zero, false, c) := by
  simp [Chan.recv, h, hc]

theorem chan_recv_open_nil {α : Type} (c : Chan α) (zero : α)
    (h : c.buf = []) (hc : c.closed = false) : c.recv zero = none := by
  simp [Chan.recv, h, hc]

/-- What a successful receive tells about the channel before and after. -/
theorem chan_recv_some {α : Type} (c d : Chan α) (zero v : α) (ok : Bool)
    (h : c.recv zero = some (v, ok, d)) :
    (ok = true ∧ c.buf = v :: d.buf ∧ d.cap = c.cap ∧ d.closed = c.closed) ∨
    (ok = false ∧ v = zero ∧ d = c ∧ c.buf = [] ∧ c.closed = true) := by
  unfold Chan.recv at h
  split at h
  · rename_i w rest hb
    simp only [Option.some.injEq, Prod.mk.injEq] at h
    obtain ⟨rfl, rfl, rfl⟩ := h
    exact Or.inl ⟨rfl, hb, rfl, rfl⟩
  · rename_i hb
    split at h
    · rename_i hc
      simp only [Option.some.injEq, Prod.mk.injEq] at h
      obtain ⟨rfl, rfl, rfl⟩ := h
      exact Or.inr ⟨rfl, rfl, rfl, hb, hc⟩
    · cases h

/-! ### RateLimitingTokenBucket.go -/

theorem refill_cap (t : Chan Unit) : (refill t).cap = t.cap := by
  unfold refill Chan.send
  split <;> rename_i h <;> split at h <;> simp_all
  cases h; rfl

theorem refill_closed (t : Chan Unit) : (refill t).closed = t.closed := by
  unfold refill Chan.send
  split <;> rename_i h <;> split at h <;> simp_all
  cases h; rfl

theorem refill_length (t : Chan Unit) :
    (refill t).buf.length = if t.buf.length < t.cap then t.buf.length + 1 else t.buf.length := by
  unfold refill Chan.send
  by_cases h : t.buf.length < t.cap <;> simp [h]

theorem bucket_inv_init : Bucket.init.Inv := by
  simp [Bucket.Inv, Bucket.init, Chan.make, bucketSize, numRequests]

theorem bucket_inv_step (s t : Bucket) (a : BucketAct) (hs : s.Inv)
    (h : s.step a = some t) : t.Inv := by
  obtain ⟨hcap, hlen, htk, hi, hcl⟩ := hs
  cases a with
  | tick =>
    simp only [Bucket.step, Option.some.injEq] at h
    subst h
    refine ⟨by simpa [refill_cap] using hcap, ?_, ?_, hi, by simpa [refill_closed] using hcl⟩
    · simp only [refill_length, hcap]; split <;> omega
    · simp only [refill_length, hcap]; split <;> omega
  | take =>
    simp only [Bucket.step] at h
    split at h
    · rename_i hlt
      split at h
      · rename_i v ok d hr
        simp only [Option.some.injEq] at h
        subst h
        rcases chan_recv_some _ _ _ _ _ hr with ⟨_, hb, hc, hd⟩ | ⟨_, _, _, _, hd⟩
        · have hl : s.tokens.buf.length = d.buf.length + 1 := by simp [hb]
          exact ⟨by simpa [hc] using hcap, by simp only; omega, by simp only; omega,
            by simp only; omega, by simpa [hd] using hcl⟩
        · rw [hcl] at hd; cases hd
      · cases h
    · cases h

theorem bucket_inv_run (acts : List BucketAct) (s t : Bucket) (hs : s.Inv)
    (h : Bucket.run acts s = some t) : t.Inv := by
  induction acts generalizing s with
  | nil => simp only [Bucket.run, Option.some.injEq] at h; subst h; exact hs
  | cons a rest ih =>
    simp only [Bucket.run] at h
    split at h
    · rename_i u hu
      exact ih u (bucket_inv_step s u a hs hu) h
    · cases h

/-- C1: starting from the empty bucket, after any sequence of refill ticks and
token takes the number of tokens in the bucket is at least 0 and at most
`bucketSize`, which is 3. -/
theorem bucket_capacity_invariant (acts : List BucketAct) (s : Bucket)
    (h : Bucket.run acts Bucket.init = some s) :
    0 ≤ s.tokens.buf.length ∧ s.tokens.buf.length ≤ bucketSize ∧ bucketSize = 3 :=
  ⟨Nat.zero_le _, (bucket_inv_run acts _ s bucket_inv_init h).2.1, rfl⟩

/-- C1 at a run of six ticks and one take: the bucket is full, with 3 tokens. -/
theorem bucket_capacity_invariant_witness :
    Bucket.run [.tick, .tick, .take, .tick, .tick, .tick, .tick] Bucket.init
        = some ⟨⟨[(), (), ()], 3, false⟩, 1, 6⟩ ∧
      (0 ≤ 3 ∧ 3 ≤ bucketSize ∧ bucketSize = 3) :=
  ⟨by decide, bucket_capacity_invariant
    [.tick, .tick, .take, .tick, .tick, .tick, .tick] ⟨⟨[(), (), ()], 3, false⟩, 1, 6⟩
    (by decide)⟩

/-- C2: on a tick, a bucket holding fewer than `bucketSize` tokens gets exactly
one more token; a bucket already holding `bucketSize` tokens is left unchanged
(the token is discarded); in both cases the tick step is enabled, and so is the
next one: the refill loop does not block. -/
theorem refill_tick_adds_one_or_discards (s : Bucket) (hcap : s.tokens.cap = bucketSize) :
    ∃ t, s.step .tick = some t ∧ t.i = s.i ∧
      (s.tokens.buf.length < bucketSize →
        t.tokens.buf = s.tokens.buf ++ [()] ∧
          t.tokens.buf.length = s.tokens.buf.length + 1) ∧
      (s.tokens.buf.length = bucketSize → t.tokens = s.tokens) ∧
      (t.step .tick).isSome = true := by
  refine ⟨_, rfl, rfl, ?_, ?_, rfl⟩
  · intro h
    have h2 : s.tokens.buf.length < s.tokens.cap := by omega
    simp [refill, Chan.send, h2]
  · intro h
    have h2 : ¬ s.tokens.buf.length < s.tokens.cap := by omega
    simp [refill, Chan.send, h2]

/-- C2 at a full bucket: the tick leaves it unchanged. -/
theorem refill_tick_adds_one_or_discards_witness :
    (⟨⟨[(), (), ()], 3, false⟩, 0, 3⟩ : Bucket).tokens.cap = bucketSize ∧
    ∃ t, (⟨⟨[(), (), ()], 3, false⟩, 0, 3⟩ : Bucket).step .tick = some t ∧ t.i = 0 ∧
      ((3 : Nat) < bucketSize →
        t.tokens.buf = [(), (), ()] ++ [()] ∧ t.tokens.buf.length = 3 + 1) ∧
      ((3 : Nat) = bucketSize → t.tokens = ⟨[(), (), ()], 3, false⟩) ∧
      (t.step .tick).isSome = true :=
  ⟨rfl, refill_tick_adds_one_or_discards ⟨⟨[(), (), ()], 3, false⟩, 0, 3⟩ rfl⟩

/-- C7, as the claim states it, fails: at the start the bucket is empty, so the
first request cannot take a token before a refill tick (its step is not
enabled), and no execution serves all 5 requests with only two ticks. -/
theorem burst_at_start_counterexample :
    Bucket.init.tokens.buf = [] ∧ Bucket.init.step .take = none ∧
      ¬ ∃ acts s, Bucket.run acts Bucket.init = some s ∧ s.i = 5 ∧ s.ticks = 2 := by
  refine ⟨rfl, by decide, ?_⟩
  rintro ⟨acts, s, h, hi, ht⟩
  have := (bucket_inv_run acts _ s bucket_inv_init h).2.2.1
  omega

/-- C7, amended: the bucket starts empty, so every request waits for a refill
tick: in every reachable state the number of requests served is at most the
number of ticks received (request k is served only after k ticks), serving
all 5 requests needs at least 5 ticks, and 5 ticks are enough. -/
theorem every_request_waits_for_a_tick (acts : List BucketAct) (s : Bucket)
    (h : Bucket.run acts Bucket.init = some s) :
    s.i ≤ s.ticks ∧ (s.i = numRequests → 5 ≤ s.ticks) ∧
      (s.ticks = 0 → s.step .take = none) ∧
      ∃ t, Bucket.run [.tick, .take, .tick, .take, .tick, .take, .tick, .take, .tick, .take]
        Bucket.init = some t ∧ t.i = numRequests ∧ t.ticks = 5 := by
  obtain ⟨_, _, htk, _, hcl⟩ := bucket_inv_run acts _ s bucket_inv_init h
  refine ⟨by omega, fun hi => by simp only [numRequests] at hi; omega, ?_,
    ⟨⟨[], 3, false⟩, 5, 5⟩, by decide, rfl, rfl⟩
  intro h0
  have hb : s.tokens.buf = [] := List.length_eq_zero.mp (by omega)
  simp [Bucket.step, chan_recv_open_nil _ _ hb hcl]

/-- C7, amended, at a run of three ticks and one take. -/
theorem every_request_waits_for_a_tick_witness :
    Bucket.run [.tick, .take, .tick, .tick] Bucket.init = some ⟨⟨[(), ()], 3, false⟩, 1, 3⟩ ∧
    (1 ≤ 3 ∧ ((1 : Nat) = numRequests → 5 ≤ 3) ∧
      ((3 : Nat) = 0 → (⟨⟨[(), ()], 3, false⟩, 1, 3⟩ : Bucket).step .take = none) ∧
      ∃ t, Bucket.run [.tick, .take, .tick, .take, .tick, .take, .tick, .take, .tick, .take]
        Bucket.init = some t ∧ t.i = numRequests ∧ t.ticks = 5) :=
  ⟨by decide, every_request_waits_for_a_tick [.tick, .take, .tick, .tick]
    ⟨⟨[(), ()], 3, false⟩, 1, 3⟩ (by decide)⟩

/-! ### Refill-loop shutdown -/

theorem offerAll_refill (sigs : List Signal) (s : RefillLoop) :
    (offerAll refillLoopStep sigs s).returned = s.returned ∧
      (offerAll refillLoopStep sigs s).tickerStopped = s.tickerStopped := by
  induction sigs generalizing s with
  | nil => exact ⟨rfl, rfl⟩
  | cons g rest ih =>
    cases g with
    | tick =>
      by_cases hr : s.returned = true
      · simpa [offerAll, refillLoopStep, hr] using ih s
      · simpa [offerAll, refillLoopStep, hr] using ih { s with tokens := refill s.tokens }
    | stop => simpa [offerAll, refillLoopStep] using ih s

theorem offerAll_tickers_returned (sigs : List Signal) (s : TickersLoop)
    (h : s.returned = true) : (offerAll tickersLoopStep sigs s).returned = true := by
  induction sigs generalizing s with
  | nil => exact h
  | cons g rest ih => cases g <;> simpa [offerAll, tickersLoopStep, h] using ih s h

theorem offerAll_tickers (sigs : List Signal) (s : TickersLoop) (h : Signal.stop ∈ sigs) :
    (offerAll tickersLoopStep sigs s).returned = true := by
  induction sigs generalizing s with
  | nil => cases h
  | cons g rest ih =>
    by_cases hr : s.returned = true
    · exact offerAll_tickers_returned _ s hr
    · cases g with
      | tick =>
        have h2 : Signal.stop ∈ rest := by simpa using h
        simpa [offerAll, tickersLoopStep, hr] using ih _ h2
      | stop =>
        simpa [offerAll, tickersLoopStep, hr] using
          offerAll_tickers_returned rest { s with returned := true } rfl

/-- C10, as the claim states it, fails: the refill loop of
`RateLimitingTokenBucket.go` receives no stop signal (a stop offered to it is
not taken), and after stops have been offered it has neither returned nor
stopped its ticker, and has gone on filling the bucket at every tick. -/
theorem refill_loop_stop_counterexample :
    refillLoopStep RefillLoop.start .stop = none ∧
      offerAll refillLoopStep [.tick, .stop, .tick, .stop, .tick] RefillLoop.start
        = ⟨⟨[(), (), ()], 3, false⟩, false, false⟩ := by
  decide

/-- C10, amended: the refill loop of `RateLimitingTokenBucket.go` has no stop
signal: whatever ticks and stop requests are offered to it, it has not
returned, has not stopped its ticker, takes no stop request and is ready for
the next tick (it ends only with the process).  The loop of `Tickers.go` does
have a stop signal: once `done` has been offered, it has returned. -/
theorem refill_loop_never_returns (sigs : List Signal) :
    (offerAll refillLoopStep sigs RefillLoop.start).returned = false ∧
      (offerAll refillLoopStep sigs RefillLoop.start).tickerStopped = false ∧
      refillLoopStep (offerAll refillLoopStep sigs RefillLoop.start) .stop = none ∧
      (refillLoopStep (offerAll refillLoopStep sigs RefillLoop.start) .tick).isSome = true ∧
      (Signal.stop ∈ sigs → (offerAll tickersLoopStep sigs TickersLoop.start).returned = true) := by
  obtain ⟨h1, h2⟩ := offerAll_refill sigs RefillLoop.start
  have h1b : (offerAll refillLoopStep sigs RefillLoop.start).returned = false := h1
  refine ⟨h1b, h2, rfl, ?_, offerAll_tickers sigs _⟩
  simp [refillLoopStep, h1b]

/-- C10, amended, at the signals tick, stop: the refill loop is still running,
the loop of `Tickers.go` has returned. -/
theorem refill_loop_never_returns_witness :
    (offerAll refillLoopStep [.tick, .stop] RefillLoop.start).returned = false ∧
      (offerAll refillLoopStep [.tick, .stop] RefillLoop.start).tickerStopped = false ∧
      refillLoopStep (offerAll refillLoopStep [.tick, .stop] RefillLoop.start) .stop = none ∧
      (refillLoopStep (offerAll refillLoopStep [.tick, .stop] RefillLoop.start) .tick).isSome
        = true ∧
      (Signal.stop ∈ [Signal.tick, Signal.stop] →
        (offerAll tickersLoopStep [.tick, .stop] TickersLoop.start).returned = true) :=
  refill_loop_never_returns [.tick, .stop]

/-! ### WorkerPool.go -/

theorem pool_step_moves (n e : Nat) (s t : Pool) (a : PoolAct)
    (h : s.step n e a = some t) : Pool.Moves n e s t := by
  cases a with
  | main =>
    simp only [Pool.step] at h
    split at h
    · rename_i j hm
      split at h
      · rename_i hj
        split at h
        · rename_i c hc
          cases h
          exact Pool.Moves.send s j c hm hj hc
        · cases h
      · rename_i hj
        cases h
        exact Pool.Moves.close s j hm (by omega)
    · rename_i a hm
      split at h
      · rename_i ha
        split at h
        · rename_i r ok c hc
          cases h
          exact Pool.Moves.collect s a r ok c hm ha hc
        · cases h
      · rename_i ha
        cases h
        exact Pool.Moves.finish s a hm (by omega)
    · cases h
  | worker w =>
    simp only [Pool.step] at h
    split at h
    · cases h
    · rename_i hm
      split at h
      · cases h
      · rename_i st hw
        split at h
        · rename_i st2 jobs2 results2 evs hs
          cases h
          unfold workerStep at hs
          split at hs
          · split at hs
            · rename_i j c hr
              simp only [Option.some.injEq, Prod.mk.injEq] at hs
              obtain ⟨h1, h2, h3, h4⟩ := hs
              subst h1 h2 h3 h4
              exact Pool.Moves.claim s w j c hm hw hr
            · rename_i z c hr
              simp only [Option.some.injEq, Prod.mk.injEq] at hs
              obtain ⟨h1, h2, h3, h4⟩ := hs
              subst h1 h2 h3 h4
              simpa using Pool.Moves.leave s w z c hm hw hr
            · cases hs
          · rename_i j
            split at hs
            · rename_i c hc
              simp only [Option.some.injEq, Prod.mk.injEq] at hs
              obtain ⟨h1, h2, h3, h4⟩ := hs
              subst h1 h2 h3 h4
              exact Pool.Moves.emit s w j c hm hw hc
            · cases hs
          · cases hs
        · cases h

theorem sum_map_set {M : Type} [AddCommMonoid M] (f : WState → M) (l : List WState) (i : Nat)
    (old new : WState) (h : l[i]? = some old) :
    ((l.set i new).map f).sum + f old = (l.map f).sum + f new := by
  induction l generalizing i with
  | nil => simp at h
  | cons x xs ih =>
    cases i with
    | zero =>
      simp only [List.getElem?_cons_zero, Option.some.injEq] at h
      subst h
      simp only [List.set_cons_zero, List.map_cons, List.sum_cons]
      rw [add_comm (f new), add_assoc, add_comm (f x), add_comm (f new), add_assoc]
    | succ k =>
      simp only [List.getElem?_cons_succ] at h
      simp only [List.set_cons_succ, List.map_cons, List.sum_cons, add_assoc, ih k h]

theorem claimedJobs_append (l m : List Event) :
    claimedJobs (l ++ m) = claimedJobs l ++ claimedJobs m := by
  induction l with
  | nil => rfl
  | cons x xs ih => cases x <;> simp [claimedJobs, ih]

theorem jobsFrom_length (a k : Nat) : (jobsFrom a k).length = k := by
  unfold jobsFrom
  rw [List.length_map, List.length_range']

theorem jobsFrom_succ (k : Nat) : jobsFrom 1 (k + 1) = jobsFrom 1 k ++ [((k + 1 : Nat) : Int)] := by
  simp [jobsFrom, List.range'_concat, Nat.add_comm]

theorem pool_inv_init (n e : Nat) : (Pool.init n).Inv n e where
  jobsCap := rfl
  resultsCap := rfl
  resultsOpen := rfl
  workersLen := rfl
  mainOk := by simp [Pool.mainOk, Pool.init, Chan.make]
  fifo := by simp [Pool.init, Chan.make, claimedJobs, sentCount, jobsFrom]
  account := by simp [Pool.init, Chan.make, claimedJobs, heldResult, List.replicate]
  count := by simp [Pool.init, Chan.make, claimedJobs, heldCount, List.replicate]
  gone := by simp [Pool.init, List.replicate]

theorem pool_mainOk_congr (n e : Nat) (s t : Pool) (h1 : t.main = s.main)
    (h2 : t.jobs.closed = s.jobs.closed) (h3 : t.received = s.received) (h : s.mainOk n e) :
    t.mainOk n e := by
  simp only [Pool.mainOk, h1, h2, h3] at h ⊢
  exact h

theorem pool_inv_moves (n e : Nat) (s t : Pool) (hs : s.Inv n e) (h : Pool.Moves n e s t) :
    t.Inv n e := by
  cases h with
  | send j c hm hj hc =>
    obtain ⟨hb, hcap, hcl, hlt⟩ := chan_send_some _ _ _ hc
    have hmo := hs.mainOk
    simp only [Pool.mainOk, hm] at hmo
    obtain ⟨h1, h2, h3, h4⟩ := hmo
    have hf := hs.fifo
    simp only [hm, sentCount] at hf
    refine ⟨by simpa [hcap] using hs.jobsCap, hs.resultsCap, hs.resultsOpen, hs.workersLen,
      ?_, ?_, hs.account, hs.count, ?_⟩
    · simp only [Pool.mainOk]
      exact ⟨by omega, by omega, by rw [hcl]; exact h3, h4⟩
    · simp only [sentCount, hb, Nat.add_sub_cancel]
      obtain ⟨k, rfl⟩ : ∃ k, j = k + 1 := ⟨j - 1, by omega⟩
      simp only [Nat.add_sub_cancel] at hf
      rw [jobsFrom_succ, ← hf, List.append_assoc]
    · intro hx
      have := (hs.gone hx).1
      rw [h3] at this
      cases this
  | close j hm hj =>
    have hmo := hs.mainOk
    simp only [Pool.mainOk, hm] at hmo
    obtain ⟨h1, h2, h3, h4⟩ := hmo
    have hf := hs.fifo
    simp only [hm, sentCount] at hf
    have hjn : j - 1 = n := by omega
    refine ⟨hs.jobsCap, hs.resultsCap, hs.resultsOpen, hs.workersLen, ?_, ?_, hs.account,
      hs.count, ?_⟩
    · simp [Pool.mainOk, Chan.close, h4]
    · simp only [sentCount, Chan.close]
      rw [hf, hjn]
    · intro hx
      have := (hs.gone hx).1
      rw [h3] at this
      cases this
  | collect a r ok c hm ha hc =>
    have hmo := hs.mainOk
    simp only [Pool.mainOk, hm] at hmo
    obtain ⟨h1, h2, h3, h4⟩ := hmo
    have hf := hs.fifo
    simp only [hm, sentCount] at hf
    rcases chan_recv_some _ _ _ _ _ hc with ⟨_, hb, hcap, hcl⟩ | ⟨_, _, _, _, hcl⟩
    · refine ⟨hs.jobsCap, by simpa [hcap] using hs.resultsCap, by simpa [hcl] using hs.resultsOpen,
        hs.workersLen, ?_, ?_, ?_, ?_, hs.gone⟩
      · simp only [Pool.mainOk, List.length_append, List.length_singleton]
        exact ⟨by omega, by omega, h3, by omega⟩
      · simpa [sentCount] using hf
      · have := hs.account
        rw [hb] at this
        rw [← this]
        simp only [Multiset.coe_add, List.append_assoc, List.singleton_append]
      · have := hs.count
        rw [hb] at this
        simp only [List.length_append, List.length_singleton, List.length_cons,
          List.length_nil] at this ⊢
        omega
    · rw [hs.resultsOpen] at hcl
      cases hcl
  | finish a hm ha =>
    have hmo := hs.mainOk
    simp only [Pool.mainOk, hm] at hmo
    obtain ⟨h1, h2, h3, h4⟩ := hmo
    have hf := hs.fifo
    simp only [hm, sentCount] at hf
    refine ⟨hs.jobsCap, hs.resultsCap, hs.resultsOpen, hs.workersLen, ?_, ?_, hs.account,
      hs.count, hs.gone⟩
    · simp only [Pool.mainOk]
      exact ⟨h3, by omega⟩
    · simpa [sentCount] using hf
  | claim w j c hm hw hc =>
    rcases chan_recv_some _ _ _ _ _ hc with ⟨_, hb, hcap, hcl⟩ | ⟨hf, _⟩
    · have hR := sum_map_set heldResult s.workers w _ (.working j) hw
      have hC := sum_map_set heldCount s.workers w _ (.working j) hw
      simp only [heldResult, heldCount, add_zero] at hR hC
      refine ⟨by simpa [hcap] using hs.jobsCap, hs.resultsCap, hs.resultsOpen,
        by simpa using hs.workersLen, pool_mainOk_congr n e s _ rfl hcl rfl hs.mainOk, ?_, ?_, ?_,
        ?_⟩
      · have := hs.fifo
        rw [hb] at this
        simpa [claimedJobs_append, claimedJobs] using this
      · simp only [claimedJobs_append, claimedJobs, List.map_append, List.map_cons, List.map_nil,
          ← Multiset.coe_add, Multiset.coe_singleton, hR, ← hs.account]
        abel
      · simp only [claimedJobs_append, claimedJobs, List.length_append, List.length_singleton,
          hC, ← hs.count]
        omega
      · intro hx
        rcases List.mem_or_eq_of_mem_set hx with hx | hx
        · have := (hs.gone hx).2
          rw [hb] at this
          cases this
        · cases hx
    · cases hf
  | leave w z c hm hw hc =>
    rcases chan_recv_some _ _ _ _ _ hc with ⟨hf, _⟩ | ⟨_, _, _, hb, hcl⟩
    · cases hf
    · have hR := sum_map_set heldResult s.workers w _ .exited hw
      have hC := sum_map_set heldCount s.workers w _ .exited hw
      simp only [heldResult, heldCount, add_zero] at hR hC
      refine ⟨hs.jobsCap, hs.resultsCap, hs.resultsOpen,
        by simpa using hs.workersLen, pool_mainOk_congr n e s _ rfl rfl rfl hs.mainOk, hs.fifo,
        ?_, ?_, fun _ => ⟨hcl, hb⟩⟩
      · simp only [hR]
        exact hs.account
      · simp only [hC]
        exact hs.count
  | emit w j c hm hw hc =>
    obtain ⟨hb, hcap, hcl, hlt⟩ := chan_send_some _ _ _ hc
    have hR := sum_map_set heldResult s.workers w _ .ranging hw
    have hC := sum_map_set heldCount s.workers w _ .ranging hw
    simp only [heldResult, heldCount, add_zero] at hR hC
    refine ⟨hs.jobsCap, by simpa [hcap] using hs.resultsCap, by simpa [hcl] using hs.resultsOpen,
      by simpa using hs.workersLen, pool_mainOk_congr n e s _ rfl rfl rfl hs.mainOk, ?_, ?_, ?_,
      ?_⟩
    · simpa [claimedJobs_append, claimedJobs] using hs.fifo
    · simp only [claimedJobs_append, claimedJobs, List.append_nil, hb, ← Multiset.coe_add,
        Multiset.coe_singleton, ← hs.account, ← hR]
      abel
    · simp only [claimedJobs_append, claimedJobs, List.append_nil, hb, List.length_append,
        List.length_singleton, ← hs.count, ← hC]
      omega
    · intro hx
      rcases List.mem_or_eq_of_mem_set hx with hx | hx
      · exact hs.gone hx
      · cases hx

theorem pool_measure_moves (n e : Nat) (s t : Pool) (h : Pool.Moves n e s t) :
    t.measure n e < s.measure n e := by
  cases h with
  | send j c hm hj hc =>
    obtain ⟨hb, -, -, -⟩ := chan_send_some _ _ _ hc
    simp only [Pool.measure, hm, mainRank, hb, List.length_append, List.length_singleton]
    omega
  | close j hm hj =>
    simp only [Pool.measure, hm, mainRank, Chan.close]
    omega
  | collect a r ok c hm ha hc =>
    rcases chan_recv_some _ _ _ _ _ hc with ⟨_, hb, -, -⟩ | ⟨_, _, hd, -, -⟩
    · simp only [Pool.measure, hm, mainRank, hb, List.length_cons]
      omega
    · subst hd
      simp only [Pool.measure, hm, mainRank]
      omega
  | finish a hm ha =>
    simp only [Pool.measure, hm, mainRank]
    omega
  | claim w j c hm hw hc =>
    rcases chan_recv_some _ _ _ _ _ hc with ⟨_, hb, -, -⟩ | ⟨hf, _⟩
    · have hR := sum_map_set workerRank s.workers w _ (.working j) hw
      simp only [workerRank] at hR
      simp only [Pool.measure, hb, List.length_cons]
      omega
    · cases hf
  | leave w z c hm hw hc =>
    have hR := sum_map_set workerRank s.workers w _ .exited hw
    simp only [workerRank] at hR
    simp only [Pool.measure]
    omega
  | emit w j c hm hw hc =>
    obtain ⟨hb, -, -, -⟩ := chan_send_some _ _ _ hc
    have hR := sum_map_set workerRank s.workers w _ .ranging hw
    simp only [workerRank] at hR
    simp only [Pool.measure, hb, List.length_append, List.length_singleton]
    omega

theorem pool_inv_run (n e : Nat) (acts : List PoolAct) (s t : Pool) (hs : s.Inv n e)
    (h : Pool.run n e acts s = some t) : t.Inv n e := by
  induction acts generalizing s with
  | nil => simp only [Pool.run, Option.some.injEq] at h; subst h; exact hs
  | cons a rest ih =>
    simp only [Pool.run] at h
    split at h
    · rename_i u hu
      exact ih u (pool_inv_moves n e s u hs (pool_step_moves n e s u a hu)) h
    · cases h

theorem pool_measure_run (n e : Nat) (acts : List PoolAct) (s t : Pool)
    (h : Pool.run n e acts s = some t) : acts.length + t.measure n e ≤ s.measure n e := by
  induction acts generalizing s with
  | nil => simp only [Pool.run, Option.some.injEq] at h; subst h; simp
  | cons a rest ih =>
    simp only [Pool.run] at h
    split at h
    · rename_i u hu
      have h1 := pool_measure_moves n e s u (pool_step_moves n e s u a hu)
      have h2 := ih u h
      simp only [List.length_cons]
      omega
    · cases h

theorem workers_cases (l : List WState) :
    (∃ (i : Nat) (j : Int), l[i]? = some (WState.working j)) ∨
      (∃ i : Nat, l[i]? = some WState.ranging) ∨ (∀ w ∈ l, w = WState.exited) := by
  induction l with
  | nil => exact Or.inr (Or.inr (by simp))
  | cons x xs ih =>
    cases x with
    | working j => exact Or.inl ⟨0, j, by simp⟩
    | ranging => exact Or.inr (Or.inl ⟨0, by simp⟩)
    | exited =>
      rcases ih with ⟨i, j, h⟩ | ⟨i, h⟩ | h
      · exact Or.inl ⟨i + 1, j, by simpa using h⟩
      · exact Or.inr (Or.inl ⟨i + 1, by simpa using h⟩)
      · exact Or.inr (Or.inr (by simpa using h))

theorem heldCount_sum_exited (l : List WState) (h : ∀ w ∈ l, w = WState.exited) :
    (l.map heldCount).sum = 0 := by
  induction l with
  | nil => rfl
  | cons x xs ih =>
    have hx : x = WState.exited := h x (by simp)
    subst hx
    simpa [heldCount] using ih (fun w hw => h w (by simp [hw]))

theorem heldCount_sum_pos (l : List WState) (i : Nat) (j : Int)
    (h : l[i]? = some (WState.working j)) : 1 ≤ (l.map heldCount).sum := by
  have := sum_map_set heldCount l i _ .exited h
  simp only [heldCount] at this
  omega

theorem heldResult_sum_zero (l : List WState) (h : (l.map heldCount).sum = 0) :
    (l.map heldResult).sum = 0 := by
  induction l with
  | nil => rfl
  | cons x xs ih =>
    cases x with
    | working j => simp [heldCount] at h
    | ranging => simpa [heldResult] using ih (by simpa [heldCount] using h)
    | exited => simpa [heldResult] using ih (by simpa [heldCount] using h)

/-- While main has not returned, some goroutine can take a step, provided the
collecting loop does not wait for more results than jobs were sent. -/
theorem pool_not_stuck (n e : Nat) (s : Pool) (hs : s.Inv n e) (he : e ≤ n)
    (hm : s.main ≠ .exited) : ∃ a, (s.step n e a).isSome = true := by
  have hmo := hs.mainOk
  have hf := congrArg List.length hs.fifo
  have hcount := hs.count
  rw [List.length_append, jobsFrom_length] at hf
  cases hmain : s.main with
  | exited => exact absurd hmain hm
  | sending j =>
    simp only [Pool.mainOk, hmain] at hmo
    simp only [hmain, sentCount] at hf
    refine ⟨.main, ?_⟩
    by_cases hj : j ≤ n
    · have hlt : s.jobs.buf.length < s.jobs.cap := by rw [hs.jobsCap]; omega
      simp [Pool.step, hmain, hj, Chan.send, hlt]
    · simp [Pool.step, hmain, hj]
  | collecting a =>
    simp only [Pool.mainOk, hmain] at hmo
    simp only [hmain, sentCount] at hf
    obtain ⟨h1, h2, h3, h4⟩ := hmo
    by_cases ha : a ≤ e
    · cases hb : s.results.buf with
      | cons r rest => exact ⟨.main, by simp [Pool.step, hmain, ha, Chan.recv, hb]⟩
      | nil =>
        rw [hb, List.length_nil] at hcount
        rcases workers_cases s.workers with ⟨i, j, hw⟩ | ⟨i, hw⟩ | hall
        · refine ⟨.worker i, ?_⟩
          have hlt : s.results.buf.length < s.results.cap := by
            rw [hs.resultsCap, hb, List.length_nil]; omega
          simp [Pool.step, hmain, hw, workerStep, Chan.send, hlt]
        · refine ⟨.worker i, ?_⟩
          cases hjb : s.jobs.buf with
          | cons j rest => simp [Pool.step, hmain, hw, workerStep, Chan.recv, hjb]
          | nil => simp [Pool.step, hmain, hw, workerStep, Chan.recv, hjb, h3]
        · exfalso
          have hne : s.workers ≠ [] := by
            intro h0
            have := hs.workersLen
            rw [h0] at this
            cases this
          obtain ⟨x, hx⟩ := List.exists_mem_of_ne_nil _ hne
          have hxe := hall x hx
          subst hxe
          have hbuf := (hs.gone hx).2
          rw [hbuf, List.length_nil] at hf
          rw [heldCount_sum_exited _ hall] at hcount
          omega
    · exact ⟨.main, by simp [Pool.step, hmain, ha]⟩

theorem wrapInt64_of_range (x : Int) (h1 : -2 ^ 63 ≤ x) (h2 : x < 2 ^ 63) : wrapInt64 x = x := by
  unfold wrapInt64
  norm_num at h1 h2 ⊢
  omega

theorem process_jobsFrom (n : Nat) (hn : n < 2 ^ 62) :
    (jobsFrom 1 n).map process = (jobsFrom 1 n).map (fun j => 2 * j) := by
  apply List.map_congr_left
  intro j hj
  simp only [jobsFrom, List.mem_map, List.mem_range'_1] at hj
  obtain ⟨k, ⟨hk1, hk2⟩, rfl⟩ := hj
  unfold process
  rw [wrapInt64_of_range]
  · ring
  · norm_num at hn ⊢; omega
  · norm_num at hn ⊢; omega

theorem jobsFrom_nodup (a k : Nat) : (jobsFrom a k).Nodup := by
  unfold jobsFrom
  exact (List.nodup_range' a k).map (fun x y h => by exact_mod_cast h)

theorem mem_claimedJobs (log : List Event) (w : Nat) (j : Int) (h : Event.claim w j ∈ log) :
    j ∈ claimedJobs log := by
  induction log with
  | nil => cases h
  | cons x xs ih =>
    rcases List.mem_cons.mp h with h | h
    · subst h; simp [claimedJobs]
    · have := ih h
      cases x <;> simp [claimedJobs, this]

theorem claimedJobs_mem (log : List Event) (j : Int) (h : j ∈ claimedJobs log) :
    ∃ w, Event.claim w j ∈ log := by
  induction log with
  | nil => cases h
  | cons x xs ih =>
    cases x with
    | claim v i =>
      simp only [claimedJobs, List.mem_cons] at h
      rcases h with h | h
      · subst h; exact ⟨v, by simp⟩
      · obtain ⟨w, hw⟩ := ih h; exact ⟨w, by simp [hw]⟩
    | emit v r =>
      obtain ⟨w, hw⟩ := ih (by simpa [claimedJobs] using h); exact ⟨w, by simp [hw]⟩
    | acquire v =>
      obtain ⟨w, hw⟩ := ih (by simpa [claimedJobs] using h); exact ⟨w, by simp [hw]⟩

theorem claim_unique (log : List Event) (hn : (claimedJobs log).Nodup) (w v : Nat) (j : Int)
    (h1 : Event.claim w j ∈ log) (h2 : Event.claim v j ∈ log) : w = v := by
  induction log with
  | nil => cases h1
  | cons x xs ih =>
    cases x with
    | claim u i =>
      simp only [claimedJobs, List.nodup_cons] at hn
      simp only [List.mem_cons, Event.claim.injEq] at h1 h2
      rcases h1 with ⟨rfl, rfl⟩ | h1
      · rcases h2 with ⟨rfl, -⟩ | h2
        · rfl
        · exact absurd (mem_claimedJobs _ _ _ h2) hn.1
      · rcases h2 with ⟨rfl, rfl⟩ | h2
        · exact absurd (mem_claimedJobs _ _ _ h1) hn.1
        · exact ih hn.2 h1 h2
    | emit u r =>
      simp only [claimedJobs] at hn
      simp only [List.mem_cons] at h1 h2
      exact ih hn (by simpa using h1) (by simpa using h2)
    | acquire u =>
      simp only [claimedJobs] at hn
      simp only [List.mem_cons] at h1 h2
      exact ih hn (by simpa using h1) (by simpa using h2)

/-- What holds once main has returned from a run whose collecting loop waits for
`n` results: everything sent has been claimed, processed and received. -/
theorem pool_inv_exited (n : Nat) (s : Pool) (hs : s.Inv n n) (hm : s.main = .exited) :
    s.received.length = n ∧ claimedJobs s.log = jobsFrom 1 n ∧
      (↑s.received : Multiset Int) = ↑((jobsFrom 1 n).map process) := by
  have hmo := hs.mainOk
  have hf := hs.fifo
  have hfl := congrArg List.length hs.fifo
  have hcount := hs.count
  rw [List.length_append, jobsFrom_length] at hfl
  simp only [Pool.mainOk, hm] at hmo
  simp only [hm, sentCount] at hf hfl
  have hb : s.jobs.buf = [] := List.length_eq_zero.mp (by omega)
  have hr : s.results.buf = [] := List.length_eq_zero.mp (by omega)
  have hh : (s.workers.map heldCount).sum = 0 := by omega
  rw [hb, List.append_nil] at hf
  have hacc := hs.account
  rw [hr, heldResult_sum_zero _ hh, hf] at hacc
  refine ⟨hmo.2, hf, ?_⟩
  rw [← hacc]
  simp

/-- C3: in `WorkerPool.go` run with `n` jobs, under every schedule of main and
the three workers: the execution is finite (at most `5 * n + 5` steps), it is
never stuck before main has returned, and when main has returned it has
received exactly `n` results, the multiset of received results is
`{2 * j | 1 ≤ j ≤ n}`, and every job `1..n` was claimed by exactly one worker. -/
theorem worker_pool_no_loss_no_duplication (n : Nat) (hn : n < 2 ^ 62)
    (acts : List PoolAct) (s : Pool) (h : Pool.run n n acts (Pool.init n) = some s) :
    acts.length ≤ 5 * n + 5 ∧
    (s.main ≠ .exited → ∃ a, (s.step n n a).isSome = true) ∧
    (s.main = .exited →
      s.received.length = n ∧
      (↑s.received : Multiset Int) = ↑((jobsFrom 1 n).map (fun j => 2 * j)) ∧
      ∀ j ∈ jobsFrom 1 n, ∃! w, Event.claim w j ∈ s.log) := by
  have hs := pool_inv_run n n acts _ s (pool_inv_init n n) h
  have hμ := pool_measure_run n n acts _ s h
  refine ⟨?_, pool_not_stuck n n s hs (le_refl n), ?_⟩
  · have : (Pool.init n).measure n n = 5 * n + 5 := by
      simp only [Pool.measure, Pool.init, mainRank, Chan.make, List.replicate, List.map_cons,
        List.map_nil, workerRank, List.sum_cons, List.sum_nil, List.length_nil]
      omega
    omega
  · intro hm
    obtain ⟨h1, h2, h3⟩ := pool_inv_exited n s hs hm
    refine ⟨h1, by rw [h3, process_jobsFrom n hn], ?_⟩
    intro j hj
    rw [← h2] at hj
    obtain ⟨w, hw⟩ := claimedJobs_mem _ _ hj
    refine ⟨w, hw, fun v hv => ?_⟩
    exact claim_unique s.log (by rw [h2]; exact jobsFrom_nodup 1 n) v w j hv hw

/-- C3 at a complete run with two jobs. -/
theorem worker_pool_no_loss_no_duplication_witness :
    Pool.run 2 2 poolSchedule (Pool.init 2) = some poolFinal ∧
    poolSchedule.length ≤ 5 * 2 + 5 ∧
    (poolFinal.main ≠ .exited → ∃ a, (poolFinal.step 2 2 a).isSome = true) ∧
    (poolFinal.main = .exited →
      poolFinal.received.length = 2 ∧
      (↑poolFinal.received : Multiset Int) = ↑((jobsFrom 1 2).map (fun j => 2 * j)) ∧
      ∀ j ∈ jobsFrom 1 2, ∃! w, Event.claim w j ∈ poolFinal.log) :=
  ⟨by decide,
    worker_pool_no_loss_no_duplication 2 (by norm_num) poolSchedule poolFinal (by decide)⟩

/-! ### A single worker -/

theorem runWorker_exited (id fuel : Nat) (a b : Chan Int) (log : List Event) :
    runWorker id fuel (.exited, a, b, log) = (.exited, a, b, log) := by
  cases fuel <;> simp [runWorker, workerStep]

theorem runWorker_drains (id : Nat) (js : List Int) (capJ capR : Nat) (pre : List Int)
    (log : List Event) (fuel : Nat) (hfuel : 2 * js.length + 1 ≤ fuel)
    (hcap : pre.length + js.length ≤ capR) :
    runWorker id fuel (.ranging, ⟨js, capJ, true⟩, ⟨pre, capR, false⟩, log)
      = (.exited, ⟨[], capJ, true⟩, ⟨pre ++ js.map process, capR, false⟩,
          log ++ workerTrace id js) := by
  induction js generalizing pre log fuel with
  | nil =>
    obtain ⟨f, rfl⟩ : ∃ f, fuel = f + 1 := ⟨fuel - 1, by simp at hfuel; omega⟩
    simp [runWorker, workerStep, Chan.recv, runWorker_exited, workerTrace]
  | cons j js ih =>
    simp only [List.length_cons] at hfuel hcap
    obtain ⟨f, rfl⟩ : ∃ f, fuel = f + 2 := ⟨fuel - 2, by omega⟩
    have hlt : pre.length < capR := by omega
    have := ih (pre ++ [process j]) (log ++ [Event.claim id j] ++ [Event.emit id (process j)]) f
      (by omega) (by simp only [List.length_append, List.length_singleton]; omega)
    simp only [runWorker, workerStep, Chan.recv, Chan.send, hlt, if_true, this]
    simp [workerTrace]

/-- C4: for every list of jobs enqueued in `jobs` before it is closed, a single
worker running `worker` (with room in `results`) returns after
`2 * length + 1` steps having drained `jobs`; it claimed the jobs in the order
they were enqueued and emitted the results in that same order, the results
being the jobs mapped by `j * 2` (Go's `int` product, which is the exact
product for jobs of absolute value below `2 ^ 62`). -/
theorem single_worker_fifo (id : Nat) (js : List Int) (capJ capR : Nat)
    (hR : js.length ≤ capR) :
    runWorker id (2 * js.length + 1) (.ranging, ⟨js, capJ, true⟩, Chan.make Int capR, [])
        = (.exited, ⟨[], capJ, true⟩, ⟨js.map process, capR, false⟩, workerTrace id js) ∧
      claimedJobs (workerTrace id js) = js ∧
      emittedResults (workerTrace id js) = js.map process ∧
      ((∀ j ∈ js, -2 ^ 62 ≤ j ∧ j < 2 ^ 62) → js.map process = js.map (fun j => j * 2)) := by
  refine ⟨?_, ?_, ?_, ?_⟩
  · have := runWorker_drains id js capJ capR [] [] (2 * js.length + 1) (le_refl _)
      (by simpa using hR)
    simpa [Chan.make] using this
  · clear hR
    induction js with
    | nil => rfl
    | cons j js ih => simpa [workerTrace, claimedJobs] using ih
  · clear hR
    induction js with
    | nil => rfl
    | cons j js ih => simpa [workerTrace, emittedResults] using ih
  · intro hall
    apply List.map_congr_left
    intro j hj
    obtain ⟨h1, h2⟩ := hall j hj
    unfold process
    rw [wrapInt64_of_range]
    · norm_num at h1 h2 ⊢; omega
    · norm_num at h1 h2 ⊢; omega

/-- C4 at the jobs 7, 3, 5. -/
theorem single_worker_fifo_witness :
    [7, 3, 5].length ≤ 3 ∧
    runWorker 1 (2 * [7, 3, 5].length + 1) (.ranging, ⟨[7, 3, 5], 3, true⟩,
          Chan.make Int 3, [])
        = (.exited, ⟨[], 3, true⟩, ⟨[7, 3, 5].map process, 3, false⟩, workerTrace 1 [7, 3, 5]) ∧
      claimedJobs (workerTrace 1 [7, 3, 5]) = [7, 3, 5] ∧
      emittedResults (workerTrace 1 [7, 3, 5]) = [7, 3, 5].map process ∧
      ((∀ j ∈ [7, 3, 5], -2 ^ 62 ≤ j ∧ j < 2 ^ 62) →
        [7, 3, 5].map process = [7, 3, 5].map (fun j => j * 2)) :=
  ⟨by decide, single_worker_fifo 1 [7, 3, 5] 3 3 (by decide)⟩

/-! ### Permits in the worker pool -/

theorem getElem?_set_working (l : List WState) (w i : Nat) (st : WState) (j : Int)
    (h : (l.set w st)[i]? = some (WState.working j)) :
    (i = w ∧ st = WState.working j) ∨ (i ≠ w ∧ l[i]? = some (WState.working j)) := by
  rw [List.getElem?_set] at h
  split at h
  · rename_i hw
    split at h
    · exact Or.inl ⟨hw.symm, by simpa using h⟩
    · cases h
  · rename_i hw
    exact Or.inr ⟨fun e => hw e.symm, h⟩

theorem pool_logInv_init (n : Nat) : (Pool.init n).LogInv where
  emitted := by simp [Pool.init]
  held := by
    intro i j h
    simp only [Pool.init] at h
    have := List.getElem?_mem h
    simp [List.replicate] at this
  noPermit := by simp [Pool.init]

theorem pool_logInv_moves (n e : Nat) (s t : Pool) (hs : s.LogInv) (h : Pool.Moves n e s t) :
    t.LogInv := by
  cases h with
  | send j c hm hj hc => exact ⟨hs.emitted, hs.held, hs.noPermit⟩
  | close j hm hj => exact ⟨hs.emitted, hs.held, hs.noPermit⟩
  | collect a r ok c hm ha hc => exact ⟨hs.emitted, hs.held, hs.noPermit⟩
  | finish a hm ha => exact ⟨hs.emitted, hs.held, hs.noPermit⟩
  | claim w j c hm hw hc =>
    refine ⟨?_, ?_, ?_⟩
    · intro v r hv
      simp only [List.mem_append, List.mem_singleton, reduceCtorEq, or_false] at hv
      obtain ⟨k, hk, rfl⟩ := hs.emitted v r hv
      exact ⟨k, by simp [hk], rfl⟩
    · intro i k hi
      rcases getElem?_set_working _ _ _ _ _ hi with ⟨rfl, hst⟩ | ⟨-, hold⟩
      · cases hst; simp
      · simp [hs.held i k hold]
    · intro v hv
      simp only [List.mem_append, List.mem_singleton, reduceCtorEq, or_false] at hv
      exact hs.noPermit v hv
  | leave w z c hm hw hc =>
    refine ⟨hs.emitted, ?_, hs.noPermit⟩
    intro i k hi
    rcases getElem?_set_working _ _ _ _ _ hi with ⟨-, hst⟩ | ⟨-, hold⟩
    · cases hst
    · exact hs.held i k hold
  | emit w j c hm hw hc =>
    refine ⟨?_, ?_, ?_⟩
    · intro v r hv
      simp only [List.mem_append, List.mem_singleton, Event.emit.injEq] at hv
      rcases hv with hv | ⟨rfl, rfl⟩
      · obtain ⟨k, hk, rfl⟩ := hs.emitted v r hv
        exact ⟨k, by simp [hk], rfl⟩
      · exact ⟨j, by simp [hs.held w j hw], rfl⟩
    · intro i k hi
      rcases getElem?_set_working _ _ _ _ _ hi with ⟨-, hst⟩ | ⟨-, hold⟩
      · cases hst
      · simp [hs.held i k hold]
    · intro v hv
      simp only [List.mem_append, List.mem_singleton, reduceCtorEq, or_false] at hv
      exact hs.noPermit v hv

theorem pool_logInv_run (n e : Nat) (acts : List PoolAct) (s t : Pool) (hs : s.LogInv)
    (h : Pool.run n e acts s = some t) : t.LogInv := by
  induction acts generalizing s with
  | nil => simp only [Pool.run, Option.some.injEq] at h; subst h; exact hs
  | cons a rest ih =>
    simp only [Pool.run] at h
    split at h
    · rename_i u hu
      exact ih u (pool_logInv_moves n e s u hs (pool_step_moves n e s u a hu)) h
    · cases h

theorem permitsAcquired_zero (w : Nat) (log : List Event) (h : Event.acquire w ∉ log) :
    permitsAcquired w log = 0 := by
  unfold permitsAcquired
  rw [List.length_eq_zero, List.filter_eq_nil_iff]
  intro e he hd
  have : e = Event.acquire w := by simpa using hd
  subst this
  exact h he

/-- C9, as the claim states it, fails: in `WorkerPool.go` (10 jobs) worker 1
pulls job 1 and executes it, emitting result 2, having acquired no permit:
the log is the claim followed by the emit. -/
theorem permit_before_execution_counterexample :
    (Pool.run 10 10 [.main, .worker 0, .worker 0] (Pool.init 10)).map
        (fun s => (s.log, permitsAcquired 1 s.log, s.results.buf))
      = some ([Event.claim 1 1, Event.emit 1 2], 0, [2]) := by
  decide

/-- C9, amended: `WorkerPool.go` has no token source.  In every reachable state
no worker has acquired a permit, every result emitted by a worker is the
result of a job that worker pulled from `jobs`, and a worker that holds a job
can execute it at once: its next step, the send of the result, is enabled
without waiting for anything. -/
theorem workers_take_no_permit (n : Nat) (acts : List PoolAct) (s : Pool)
    (h : Pool.run n n acts (Pool.init n) = some s) :
    (∀ w, permitsAcquired w s.log = 0) ∧
    (∀ w r, Event.emit w r ∈ s.log → ∃ j, Event.claim w j ∈ s.log ∧ r = process j) ∧
    (∀ (i : Nat) (j : Int), s.workers[i]? = some (WState.working j) → s.main ≠ .exited →
      ∃ t, s.step n n (.worker i) = some t ∧ t.results.buf = s.results.buf ++ [process j]) := by
  have hl := pool_logInv_run n n acts _ s (pool_logInv_init n) h
  have hs := pool_inv_run n n acts _ s (pool_inv_init n n) h
  refine ⟨fun w => permitsAcquired_zero w _ (hl.noPermit w), hl.emitted, ?_⟩
  intro i j hw hm
  have hf := congrArg List.length hs.fifo
  rw [List.length_append, jobsFrom_length] at hf
  have hcount := hs.count
  have hpos := heldCount_sum_pos _ i j hw
  have hsent : sentCount n s.main ≤ n := by
    have hmo := hs.mainOk
    cases hmain : s.main with
    | sending k => simp only [Pool.mainOk, hmain] at hmo; simp only [sentCount]; omega
    | collecting a => simp [sentCount]
    | exited => simp [sentCount]
  have hlt : s.results.buf.length < s.results.cap := by rw [hs.resultsCap]; omega
  have hm2 : (s.main = MainPc.exited) = False := by simpa using hm
  simp [Pool.step, hm2, hw, workerStep, Chan.send, hlt]

/-- C9, amended, at a run with two jobs in which worker 1 has emitted a result. -/
theorem workers_take_no_permit_witness :
    Pool.run 2 2 [.main, .worker 0, .main, .worker 1, .worker 0] (Pool.init 2)
      = some ⟨⟨[], 2, false⟩, ⟨[2], 2, false⟩, [.ranging, .working 2, .ranging], .sending 3, [],
          [.claim 1 1, .claim 2 2, .emit 1 2]⟩ ∧
    permitsAcquired 1 [Event.claim 1 1, Event.claim 2 2, Event.emit 1 2] = 0 := by
  have h := workers_take_no_permit 2 [.main, .worker 0, .main, .worker 1, .worker 0]
    ⟨⟨[], 2, false⟩, ⟨[2], 2, false⟩, [.ranging, .working 2, .ranging], .sending 3, [],
      [.claim 1 1, .claim 2 2, .emit 1 2]⟩ (by decide)
  exact ⟨by decide, h.1 1⟩

/-! ### RateLimiting.go, the bursty limiter -/

theorem bursty_inv_init : Bursty.init.Inv where
  limCap := rfl
  limOpen := rfl
  limLen := by simp [Bursty.init]
  balance := by simp [Bursty.init]
  reqClosed := rfl
  order := by simp [Bursty.init]
  over := by simp [Bursty.init]

theorem bursty_inv_step (s t : Bursty) (a : BurstyAct) (hs : s.Inv) (h : s.step a = some t) :
    t.Inv := by
  cases a with
  | tick =>
    simp only [Bursty.step] at h
    split at h
    · cases h
    · split at h <;> cases h <;>
        exact ⟨hs.limCap, hs.limOpen, hs.limLen, hs.balance, hs.reqClosed, hs.order, hs.over⟩
  | refill =>
    simp only [Bursty.step] at h
    split at h
    · cases h
    · rename_i hex
      split at h
      · split at h
        · cases h
          exact ⟨hs.limCap, hs.limOpen, hs.limLen, hs.balance, hs.reqClosed,
            by simpa using hs.order, hs.over⟩
        · cases h
      · rename_i tk hpc
        split at h
        · rename_i c hc
          cases h
          obtain ⟨hb, hcap, hcl, hlt⟩ := chan_send_some _ _ _ hc
          have h1 := hs.limCap
          have h2 := hs.balance
          refine ⟨by rw [hcap]; exact h1, by rw [hcl]; exact hs.limOpen, ?_, ?_, hs.reqClosed,
            hs.order, hs.over⟩
          · simp only [hb, List.length_append, List.length_singleton]; omega
          · simp only [hb, List.length_append, List.length_singleton]; omega
        · cases h
  | main =>
    simp only [Bursty.step] at h
    split at h
    · cases h
    · rename_i hex
      split at h
      · rename_i hpc
        split at h
        · rename_i req c hc
          cases h
          rcases chan_recv_some _ _ _ _ _ hc with ⟨_, hb, hcap, hcl⟩ | ⟨hf, _⟩
          · have ho := hs.order
            rw [hpc, hb] at ho
            refine ⟨hs.limCap, hs.limOpen, hs.limLen, hs.balance, by rw [hcl]; exact hs.reqClosed,
              by simpa using ho, ?_⟩
            intro hx
            simp only at hx
            rw [hx] at hex
            exact absurd rfl hex
          · cases hf
        · rename_i z c hc
          cases h
          rcases chan_recv_some _ _ _ _ _ hc with ⟨hf, _⟩ | ⟨_, _, _, hb, _⟩
          · cases hf
          · exact ⟨hs.limCap, hs.limOpen, hs.limLen, hs.balance, hs.reqClosed, hs.order,
              fun _ => ⟨hpc, hb⟩⟩
        · cases h
      · rename_i req hpc
        split at h
        · rename_i v ok c hc
          cases h
          rcases chan_recv_some _ _ _ _ _ hc with ⟨_, hb, hcap, hcl⟩ | ⟨_, _, _, _, hcl⟩
          · have h2 := hs.balance
            have h3 := hs.limLen
            rw [hb] at h2 h3
            have ho := hs.order
            rw [hpc] at ho
            refine ⟨by rw [hcap]; exact hs.limCap, by rw [hcl]; exact hs.limOpen, ?_, ?_,
              hs.reqClosed, by simpa using ho, ?_⟩
            · simp only [List.length_cons] at h3 ⊢; omega
            · simp only [List.length_cons, List.length_append, List.length_nil] at h2 ⊢
              omega
            · intro hx
              simp only at hx
              rw [hx] at hex
              exact absurd rfl hex
          · rw [hs.limOpen] at hcl
            cases hcl
        · cases h

theorem bursty_inv_run (acts : List BurstyAct) (s t : Bursty) (hs : s.Inv)
    (h : Bursty.run acts s = some t) : t.Inv := by
  induction acts generalizing s with
  | nil => simp only [Bursty.run, Option.some.injEq] at h; subst h; exact hs
  | cons a rest ih =>
    simp only [Bursty.run] at h
    split at h
    · rename_i u hu
      exact ih u (bursty_inv_step s u a hs hu) h
    · cases h

/-- C5: in every reachable state of the bursty half of `RateLimiting.go`,
`burstyLimiter` holds at most 3 values and the number of requests served is at
most 3 plus the number of refill values delivered; while fewer than 3 requests
have been served main is never blocked (the first 3 requests need no refill),
and main alone serves requests 1, 2, 3 with no tick fired and nothing
delivered; with 3 requests served and nothing delivered, the 4th request is
blocked at `<-burstyLimiter`, and once it is served a refill value has been
delivered. -/
theorem bursty_limiter_burst (acts : List BurstyAct) (s : Bursty)
    (h : Bursty.run acts Bursty.init = some s) :
    s.burstyLimiter.buf.length ≤ 3 ∧
    s.served.length ≤ 3 + s.delivered ∧
    (s.served.length < 3 → (s.step .main).isSome = true) ∧
    (Bursty.run [.main, .main, .main, .main, .main, .main] Bursty.init).map
        (fun t => (t.served, t.delivered, t.fired)) = some ([1, 2, 3], 0, 0) ∧
    (∀ req, s.served.length = 3 → s.delivered = 0 → s.mainPc = some req →
      req = 4 ∧ s.step .main = none) ∧
    (4 ≤ s.served.length → 1 ≤ s.delivered) := by
  have hs := bursty_inv_run acts _ s bursty_inv_init h
  have hbal := hs.balance
  have hord := hs.order
  refine ⟨hs.limLen, by omega, ?_, by decide, ?_, by omega⟩
  · intro hlt
    have hex : s.exited = false := by
      cases hx : s.exited with
      | false => rfl
      | true =>
        obtain ⟨h1, h2⟩ := hs.over hx
        rw [h1, h2] at hord
        have := congrArg List.length hord
        simp at this
        omega
    cases hpc : s.mainPc with
    | none =>
      cases hb : s.burstyRequests.buf with
      | nil => simp [Bursty.step, hex, hpc, Chan.recv, hb, hs.reqClosed]
      | cons r rest => simp [Bursty.step, hex, hpc, Chan.recv, hb]
    | some req =>
      cases hb : s.burstyLimiter.buf with
      | nil => rw [hb] at hbal; simp at hbal; omega
      | cons v rest => simp [Bursty.step, hex, hpc, Chan.recv, hb]
  · intro req h3 hd hpc
    have hb : s.burstyLimiter.buf = [] := List.length_eq_zero.mp (by omega)
    have hex : s.exited = false := by
      cases hx : s.exited with
      | false => rfl
      | true =>
        have := (hs.over hx).1
        rw [hpc] at this
        cases this
    refine ⟨?_, by simp [Bursty.step, hex, hpc, Chan.recv, hb, hs.limOpen]⟩
    rw [hpc] at hord
    match hsv : s.served, h3 with
    | [a, b, c], _ =>
      rw [hsv] at hord
      simp at hord
      exact hord.2.2.2.1

/-- C5 at a run in which one request was served and one refill value delivered. -/
theorem bursty_limiter_burst_witness :
    Bursty.run [.main, .main, .tick, .main, .refill, .refill, .tick] Bursty.init
      = some ⟨⟨[2], 1, false⟩, 2, none, ⟨[0, 0, 1], 3, false⟩, ⟨[3, 4], 5, true⟩, some 2,
          false, [1], 1⟩ ∧
    [1].length ≤ 3 + 1 :=
  ⟨by decide, (bursty_limiter_burst [.main, .main, .tick, .main, .refill, .refill, .tick]
    ⟨⟨[2], 1, false⟩, 2, none, ⟨[0, 0, 1], 3, false⟩, ⟨[3, 4], 5, true⟩, some 2,
      false, [1], 1⟩ (by decide)).2.1⟩

/-! ### RateLimiting.go (first loop) and RateLimiting2.go: the rate bound -/

theorem limiter_inv_init (interval requests : Nat) :
    Limiter.init.Inv interval requests := by
  constructor <;> simp [Limiter.init, Chan.make]

theorem limiter_inv_step (interval requests : Nat) (s t : Limiter) (a : LimiterAct)
    (hs : s.Inv interval requests) (h : s.step interval requests a = some t) :
    t.Inv interval requests := by
  obtain ⟨hcap, hopen, hlen, hcount, hbound, hdue, hbuf, hgot, hserved, hord⟩ := hs
  cases a with
  | wait d =>
    simp only [Limiter.step, Option.some.injEq] at h
    subst h
    exact ⟨hcap, hopen, hlen, hcount, hbound, Nat.le_add_right_of_le hdue,
      fun t ht => ⟨(hbuf t ht).1, Nat.le_add_right_of_le (hbuf t ht).2⟩,
      fun t ht => ⟨(hgot t ht).1, Nat.le_add_right_of_le (hgot t ht).2⟩,
      fun i e he => ⟨(hserved i e he).1, (hserved i e he).2.1,
        Nat.le_add_right_of_le (hserved i e he).2.2⟩, hord⟩
  | tick =>
    simp only [Limiter.step] at h
    split at h
    · rename_i hdue2
      by_cases hroom : s.tickC.buf.length < s.tickC.cap
      · have hnil : s.tickC.buf = [] := List.length_eq_zero.mp (by omega)
        simp only [Chan.send, hroom, if_true, Option.some.injEq] at h
        subst h
        simp only [hnil, List.length_nil, Nat.add_zero] at hcount
        refine ⟨hcap, hopen, by simp [hnil], ?_, hbound, hdue2, ?_, hgot, hserved, hord⟩
        · dsimp only
          simp only [hnil, List.nil_append, List.length_singleton]
          omega
        · intro t ht
          simp only [hnil, List.nil_append, List.mem_singleton] at ht
          subst ht
          refine ⟨le_trans (Nat.mul_le_mul_right _ ?_) hdue2, le_refl _⟩
          dsimp only
          omega
      · simp only [Chan.send, hroom, if_false, Option.some.injEq] at h
        subst h
        exact ⟨hcap, hopen, hlen, Nat.le_succ_of_le hcount, hbound, hdue2, hbuf, hgot,
          hserved, hord⟩
    · cases h
  | recv =>
    simp only [Limiter.step] at h
    cases hg : s.got with
    | some g => simp [hg] at h
    | none =>
      simp only [hg, Option.toList_none, List.length_nil, Nat.add_zero] at h hcount hbound hbuf
      split at h
      · rename_i hlt
        cases hb : s.tickC.buf with
        | nil => simp [Chan.recv, hb, hopen] at h
        | cons v rest =>
          have hrest : rest = [] := by
            rw [hb] at hlen
            exact List.length_eq_zero.mp (by simpa using hlen)
          subst hrest
          simp only [Chan.recv, hb, Option.some.injEq] at h
          subst h
          have hv := hbuf v (by simp [hb])
          rw [hb] at hcount
          refine ⟨hcap, hopen, by simp, ?_, ?_, hdue, by simp, ?_, hserved, hord⟩
          · simpa using hcount
          · simp only [Option.toList_some, List.length_singleton]; omega
          · intro t ht
            simp only [Option.mem_def, Option.some.injEq] at ht
            subst ht
            exact hv
      · cases h
  | print =>
    simp only [Limiter.step] at h
    cases hg : s.got with
    | none => simp [hg] at h
    | some g =>
      simp only [hg, Option.some.injEq] at h
      subst h
      simp only [hg, Option.toList_some, List.length_singleton] at hcount hbound hbuf
      have hgs := hgot g (by simp [hg])
      refine ⟨hcap, hopen, hlen, ?_, ?_, hdue, ?_, by simp, ?_, ?_⟩
      · simpa using hcount
      · simpa using hbound
      · simpa using hbuf
      · intro i e he
        by_cases hi : i < s.served.length
        · rw [List.getElem?_append_left hi] at he
          exact hserved i e he
        · have hi2 : s.served.length ≤ i := by omega
          rw [List.getElem?_append_right hi2] at he
          obtain ⟨j, hj⟩ : ∃ j, i = s.served.length + j := ⟨i - s.served.length, by omega⟩
          subst hj
          simp only [Nat.add_sub_cancel_left] at he
          cases j with
          | zero =>
            simp only [List.getElem?_cons_zero, Option.some.injEq] at he
            subst he
            exact ⟨by simpa using hgs.1, hgs.2, le_refl _⟩
          | succ j => simp at he
      · rw [List.pairwise_append]
        refine ⟨hord, by simp, ?_⟩
        intro a ha b hb
        simp only [List.mem_singleton] at hb
        subst hb
        obtain ⟨i, hi, rfl⟩ := List.mem_iff_getElem.mp ha
        exact (hserved i _ (List.getElem?_eq_getElem hi)).2.2

theorem limiter_inv_run (interval requests : Nat) (acts : List LimiterAct) (s t : Limiter)
    (hs : s.Inv interval requests) (h : Limiter.run interval requests acts s = some t) :
    t.Inv interval requests := by
  induction acts generalizing s with
  | nil =>
    simp only [Limiter.run, Option.some.injEq] at h
    subst h
    exact hs
  | cons a rest ih =>
    simp only [Limiter.run] at h
    cases hst : s.step interval requests a with
    | none => simp [hst] at h
    | some u =>
      simp only [hst] at h
      exact ih u (limiter_inv_step interval requests s u a hs hst) h

/-- C6, as the claim states it, fails in its timed part: between the serving
of two consecutive requests less than one interval can elapse.  The schedules
that print at the times recorded in the two files are runs of the loop (every
tick when it is due, every print a little later), and in each of them two
consecutive requests are served less than one interval apart: requests 2 and 3
of `RateLimiting.go` at 401365667 ns and 601321667 ns (199956000 ns apart, the
interval is 200 ms), requests 10 and 11 of `RateLimiting2.go` at
10002007626 ns and 11001200085 ns (999192459 ns apart, the interval is 1 s). -/
theorem serving_gap_counterexample :
    ((Limiter.run 200000000 4 (replay 200000000 1 0 recordedRateLimiting) Limiter.init).map
        (fun s => s.served.map Prod.snd) = some recordedRateLimiting ∧
      recordedRateLimiting[1]? = some 401365667 ∧ recordedRateLimiting[2]? = some 601321667 ∧
      601321667 < 401365667 + 200000000) ∧
    ((Limiter.run 1000000000 20 (replay 1000000000 1 0 recordedRateLimiting2) Limiter.init).map
        (fun s => s.served.map Prod.snd) = some recordedRateLimiting2 ∧
      recordedRateLimiting2[9]? = some 10002007626 ∧
      recordedRateLimiting2[10]? = some 11001200085 ∧
      11001200085 < 10002007626 + 1000000000) := by
  refine ⟨⟨?_, ?_, ?_, ?_⟩, ⟨?_, ?_, ?_, ?_⟩⟩ <;> decide

/-- C6, amended: in every reachable state of the limiter loop (period
`interval`, `requests` iterations), the requests served, the request in
progress and the tick waiting in the channel are together at most as many as
the ticks that have occurred, so after `k` ticks at most `k` requests have been
served, and `k` ticks do not occur before the time `k * interval`; main blocks
at `<-limiter` while the channel holds no tick, and prints a request only after
it has received a tick for it; the request number `i + 1` is printed with a
tick sent at the time `(i + 1) * interval` or later, hence not before that
time; the print times do not decrease.  (The time between two consecutive
prints has no lower bound.) -/
theorem limiter_rate_bound (interval requests : Nat) (acts : List LimiterAct) (s : Limiter)
    (h : Limiter.run interval requests acts Limiter.init = some s) :
    s.served.length + s.got.toList.length + s.tickC.buf.length ≤ s.fired ∧
    s.fired * interval ≤ s.now ∧
    s.served.length ≤ requests ∧
    (s.tickC.buf = [] → s.step interval requests .recv = none) ∧
    (s.got = none → s.step interval requests .print = none) ∧
    (∀ (i : Nat) (e : Nat × Nat), s.served[i]? = some e →
      (i + 1) * interval ≤ e.1 ∧ e.1 ≤ e.2 ∧ e.2 ≤ s.now) ∧
    s.served.Pairwise (fun a b => a.2 ≤ b.2) := by
  have hs := limiter_inv_run interval requests acts Limiter.init s
    (limiter_inv_init interval requests) h
  refine ⟨hs.count, hs.due, by have := hs.bound; omega, ?_, ?_, hs.servedStamp, hs.ordered⟩
  · intro hb
    simp only [Limiter.step, Chan.recv, hb, hs.isOpen]
    cases s.got <;> simp
  · intro hg
    simp only [Limiter.step, hg]

/-- C6, amended, at the run of `RateLimiting.go` replayed from its recorded
output: 4 requests served after 4 ticks, the last tick not before 800 ms, the
request 3 printed with the tick of 600 ms. -/
theorem limiter_rate_bound_witness :
    Limiter.run 200000000 4 (replay 200000000 1 0 recordedRateLimiting) Limiter.init
        = some ⟨801292876, 4, ⟨[], 1, false⟩, none,
          [(200000000, 201267376), (400000000, 401365667), (600000000, 601321667),
            (800000000, 801292876)]⟩ ∧
      (4 : Nat) + 0 + 0 ≤ 4 ∧ 4 * 200000000 ≤ 801292876 ∧
      ((2 + 1) * 200000000 ≤ 600000000 ∧ 600000000 ≤ 601321667 ∧ 601321667 ≤ 801292876) :=
  have h : Limiter.run 200000000 4 (replay 200000000 1 0 recordedRateLimiting) Limiter.init
      = some ⟨801292876, 4, ⟨[], 1, false⟩, none,
        [(200000000, 201267376), (400000000, 401365667), (600000000, 601321667),
          (800000000, 801292876)]⟩ := by decide
  ⟨h, (limiter_rate_bound 200000000 4 _ _ h).1, (limiter_rate_bound 200000000 4 _ _ h).2.1,
    (limiter_rate_bound 200000000 4 _ _ h).2.2.2.2.2.1 2 (600000000, 601321667) (by decide)⟩

/-! ### ClosingChannel.go -/

theorem closing_mainOk_congr (n : Nat) (s t : Closing) (h1 : t.main = s.main)
    (h2 : t.jobs.closed = s.jobs.closed) (h3 : t.worker = s.worker) (h4 : t.last = s.last)
    (h : s.mainOk n) : t.mainOk n := by
  simp only [Closing.mainOk, h1, h2, h3, h4] at h ⊢
  exact h

theorem seen_all_true (l : List (Int × Bool)) (h : ∀ p ∈ l, p.2 = true) :
    l = (l.map Prod.fst).map (fun j => (j, true)) := by
  induction l with
  | nil => rfl
  | cons x xs ih =>
    obtain ⟨a, b⟩ := x
    have hb : b = true := h (a, b) (by simp)
    subst hb
    have := ih (fun p hp => h p (by simp [hp]))
    simp only [List.map_cons, List.cons.injEq, true_and]
    exact this

theorem closing_inv_init (n : Nat) : Closing.init.Inv n where
  jobsCap := rfl
  mainOk := by simp [Closing.mainOk, Closing.init, Chan.make]
  workerOk := by simp [Closing.workerOk, Closing.init, Chan.make, closingSent, jobsFrom]

/-- The rendezvous on `done`: main goes on to its final receive, the worker
returns. -/
theorem closing_meet (n : Nat) (s : Closing) (hs : s.Inv n) (hm : s.main = .awaitDone)
    (hw : s.worker = .signalling) :
    ({ s with main := .lastRecv, worker := .returned } : Closing).Inv n ∧
      ({ s with main := .lastRecv, worker := .returned } : Closing).measure n < s.measure n := by
  have hmo := hs.mainOk
  have hwo := hs.workerOk
  simp only [Closing.mainOk, hm] at hmo
  simp only [Closing.workerOk, hw] at hwo
  refine ⟨⟨hs.jobsCap, ?_, ?_⟩, ?_⟩
  · simp only [Closing.mainOk]
    exact ⟨hmo.1, trivial, hmo.2.2⟩
  · simp only [Closing.workerOk]
    exact hwo
  · simp only [Closing.measure, hm, hw, closingMainRank, closingWorkerRank]
    omega

theorem closing_inv_step (n : Nat) (s t : Closing) (a : ClosingAct) (hs : s.Inv n)
    (h : s.step n a = some t) : t.Inv n ∧ t.measure n < s.measure n := by
  have hmo := hs.mainOk
  have hwo := hs.workerOk
  cases a with
  | main =>
    simp only [Closing.step] at h
    split at h
    · rename_i j hm
      simp only [Closing.mainOk, hm] at hmo
      obtain ⟨h1, h2, h3, h4, h5⟩ := hmo
      simp only [Closing.workerOk, h4, hm, closingSent] at hwo
      split at h
      · rename_i hj
        split at h
        · rename_i c hc
          cases h
          obtain ⟨hb, hcap, hcl, hlt⟩ := chan_send_some _ _ _ hc
          refine ⟨⟨by rw [hcap]; exact hs.jobsCap, ?_, ?_⟩, ?_⟩
          · simp only [Closing.mainOk]
            exact ⟨by omega, by omega, by rw [hcl]; exact h3, h4, h5⟩
          · simp only [Closing.workerOk, h4, closingSent, hb, Nat.add_sub_cancel]
            refine ⟨?_, hwo.2⟩
            obtain ⟨k, rfl⟩ : ∃ k, j = k + 1 := ⟨j - 1, by omega⟩
            have := hwo.1
            simp only [Nat.add_sub_cancel] at this
            rw [jobsFrom_succ, ← this, List.append_assoc]
          · simp only [Closing.measure, hm, closingMainRank, hb, List.length_append,
              List.length_singleton]
            omega
        · cases h
      · rename_i hj
        cases h
        have hjn : j - 1 = n := by omega
        refine ⟨⟨hs.jobsCap, ?_, ?_⟩, ?_⟩
        · simp [Closing.mainOk, Chan.close, h4, h5]
        · simp only [Closing.workerOk, h4, closingSent, Chan.close]
          rw [← hjn]
          exact hwo
        · simp only [Closing.measure, hm, closingMainRank, Chan.close]
          omega
    · rename_i hm
      split at h
      · rename_i hw
        cases h
        exact closing_meet n s hs hm hw
      · cases h
    · rename_i hm
      simp only [Closing.mainOk, hm] at hmo
      obtain ⟨h1, h2, h3⟩ := hmo
      simp only [Closing.workerOk, h2] at hwo
      split at h
      · rename_i v ok c hc
        cases h
        rcases chan_recv_some _ _ _ _ _ hc with ⟨_, hb, _, _⟩ | ⟨hok, hv, hd, _, _⟩
        · rw [hwo.2.1] at hb
          cases hb
        · subst hok hv hd
          refine ⟨⟨hs.jobsCap, ?_, ?_⟩, ?_⟩
          · simp only [Closing.mainOk]
            exact ⟨h1, h2, trivial⟩
          · simp only [Closing.workerOk, h2]
            exact hwo
          · simp only [Closing.measure, hm, closingMainRank]
            omega
      · cases h
    · cases h
  | worker =>
    simp only [Closing.step] at h
    split at h
    · cases h
    · rename_i hne
      split at h
      · rename_i hw
        simp only [Closing.workerOk, hw] at hwo
        split at h
        · rename_i j c hc
          cases h
          rcases chan_recv_some _ _ _ _ _ hc with ⟨_, hb, hcap, hcl⟩ | ⟨hf, _⟩
          · refine ⟨⟨by rw [hcap]; exact hs.jobsCap,
              closing_mainOk_congr n s _ rfl hcl rfl rfl hs.mainOk, ?_⟩, ?_⟩
            · simp only [Closing.workerOk, hw, List.map_append, List.map_cons, List.map_nil,
                List.append_assoc, List.singleton_append]
              refine ⟨by rw [← hb]; exact hwo.1, ?_⟩
              intro p hp
              rcases List.mem_append.mp hp with hp | hp
              · exact hwo.2 p hp
              · simp only [List.mem_singleton] at hp
                rw [hp]
            · simp only [Closing.measure, hb, List.length_cons]
              omega
          · cases hf
        · rename_i z c hc
          cases h
          rcases chan_recv_some _ _ _ _ _ hc with ⟨hf, _⟩ | ⟨_, hz, _, hb, hcl⟩
          · cases hf
          · subst hz
            cases hm : s.main with
            | sending j =>
              simp only [Closing.mainOk, hm] at hmo
              rw [hmo.2.2.1] at hcl
              cases hcl
            | awaitDone =>
              simp only [Closing.mainOk, hm] at hmo
              simp only [hm, closingSent, hb, List.append_nil] at hwo
              refine ⟨⟨hs.jobsCap, ?_, ?_⟩, ?_⟩
              · simp only [Closing.mainOk, hm]
                exact ⟨hcl, by simp, hmo.2.2⟩
              · simp only [Closing.workerOk, allSeen]
                refine ⟨hcl, hb, ?_⟩
                rw [← hwo.1]
                exact congrArg (· ++ [((0 : Int), false)]) (seen_all_true _ hwo.2)
              · simp only [Closing.measure, hw, hm, closingWorkerRank]
                omega
            | lastRecv =>
              simp only [Closing.mainOk, hm] at hmo
              rw [hw] at hmo
              cases hmo.2.1
            | exited => exact absurd hm hne
        · cases h
      · rename_i hw
        split at h
        · rename_i hm
          cases h
          exact closing_meet n s hs hm hw
        · cases h
      · cases h

theorem closing_inv_run (n : Nat) (acts : List ClosingAct) (s t : Closing) (hs : s.Inv n)
    (h : Closing.run n acts s = some t) :
    t.Inv n ∧ acts.length + t.measure n ≤ s.measure n := by
  induction acts generalizing s with
  | nil => simp only [Closing.run, Option.some.injEq] at h; subst h; exact ⟨hs, by simp⟩
  | cons a rest ih =>
    simp only [Closing.run] at h
    split at h
    · rename_i u hu
      obtain ⟨h1, h2⟩ := closing_inv_step n s u a hs hu
      obtain ⟨h3, h4⟩ := ih u h1 h
      exact ⟨h3, by simp only [List.length_cons]; omega⟩
    · cases h

theorem closing_not_stuck (n : Nat) (s : Closing) (hs : s.Inv n) (hm : s.main ≠ .exited) :
    ∃ a, (s.step n a).isSome = true := by
  have hmo := hs.mainOk
  have hwo := hs.workerOk
  cases hmain : s.main with
  | exited => exact absurd hmain hm
  | sending j =>
    simp only [Closing.mainOk, hmain] at hmo
    by_cases hj : j ≤ n
    · by_cases hlt : s.jobs.buf.length < s.jobs.cap
      · exact ⟨.main, by simp [Closing.step, hmain, hj, Chan.send, hlt]⟩
      · cases hb : s.jobs.buf with
        | nil =>
          rw [hb, hs.jobsCap] at hlt
          simp at hlt
        | cons v rest =>
          exact ⟨.worker, by simp [Closing.step, hmain, hmo.2.2.2.1, Chan.recv, hb]⟩
    · exact ⟨.main, by simp [Closing.step, hmain, hj]⟩
  | awaitDone =>
    simp only [Closing.mainOk, hmain] at hmo
    cases hw : s.worker with
    | looping =>
      refine ⟨.worker, ?_⟩
      cases hb : s.jobs.buf with
      | nil => simp [Closing.step, hmain, hw, Chan.recv, hb, hmo.1]
      | cons v rest => simp [Closing.step, hmain, hw, Chan.recv, hb]
    | signalling => exact ⟨.main, by simp [Closing.step, hmain, hw]⟩
    | returned => exact absurd hw hmo.2.1
  | lastRecv =>
    simp only [Closing.mainOk, hmain] at hmo
    refine ⟨.main, ?_⟩
    cases hb : s.jobs.buf with
    | nil => simp [Closing.step, hmain, Chan.recv, hb, hmo.1]
    | cons v rest => simp [Closing.step, hmain, Chan.recv, hb]

/-- C8: in `ClosingChannel.go` with `n` jobs sent before `close(jobs)`, under
every schedule: the execution is finite (at most `2 * n + 5` steps) and never
stuck before main has returned; when main has returned, the worker has
received exactly the jobs `1..n` in send order, each with `more = true`,
followed by one receive with `more = false`, after which it signalled `done`
and returned; main's receive after that gave the zero value with `ok = false`,
and so does any further receive on the closed, drained channel. -/
theorem close_and_drain (n : Nat) (acts : List ClosingAct) (s : Closing)
    (h : Closing.run n acts Closing.init = some s) :
    acts.length ≤ 2 * n + 5 ∧
    (s.main ≠ .exited → ∃ a, (s.step n a).isSome = true) ∧
    (s.main = .exited →
      s.seen = (jobsFrom 1 n).map (fun j => (j, true)) ++ [(0, false)] ∧
      s.worker = .returned ∧ s.last = some (0, false) ∧
      s.jobs.recv 0 = some (0, false, s.jobs)) := by
  obtain ⟨hs, hμ⟩ := closing_inv_run n acts _ s (closing_inv_init n) h
  refine ⟨?_, closing_not_stuck n s hs, ?_⟩
  · have : Closing.init.measure n = 2 * n + 5 := by
      simp only [Closing.measure, Closing.init, closingMainRank, closingWorkerRank, Chan.make,
        List.length_nil]
      omega
    omega
  · intro hm
    have hmo := hs.mainOk
    have hwo := hs.workerOk
    simp only [Closing.mainOk, hm] at hmo
    simp only [Closing.workerOk, hmo.2.1] at hwo
    exact ⟨hwo.2.2, hmo.2.1, hmo.2.2, chan_recv_closed_nil _ _ hwo.2.1 hwo.1⟩

/-- C8 at a complete run of the program as written, with 3 jobs. -/
theorem close_and_drain_witness :
    Closing.run 3 closingSchedule Closing.init = some closingFinal ∧
    closingFinal.main = .exited ∧
    closingFinal.seen = (jobsFrom 1 3).map (fun j => (j, true)) ++ [(0, false)] ∧
    closingFinal.worker = .returned ∧ closingFinal.last = some (0, false) ∧
    closingFinal.jobs.recv 0 = some (0, false, closingFinal.jobs) :=
  ⟨by decide, rfl,
    (close_and_drain 3 closingSchedule closingFinal (by decide)).2.2 rfl⟩

/-! ### TestingAndBenchmarking.go -/

/-- C15: `IntMin` returns the minimum: for all ints `a` and `b` the result is
at most `a`, at most `b`, and is `a` or `b`; `IntMin(2, -2) = -2`,
`IntMin(0, 1) = 0`, `IntMin(0, -1) = -1`. -/
theorem intMin_is_minimum (a b : Int) :
    IntMin a b ≤ a ∧ IntMin a b ≤ b ∧ (IntMin a b = a ∨ IntMin a b = b) ∧
      IntMin 2 (-2) = -2 ∧ IntMin 0 1 = 0 ∧ IntMin 0 (-1) = -1 := by
  refine ⟨?_, ?_, ?_, by decide, by decide, by decide⟩
  · unfold IntMin; split <;> omega
  · unfold IntMin; split <;> omega
  · unfold IntMin; split
    · exact Or.inl rfl
    · exact Or.inr rfl

/-- C16: `IntMin` is symmetric: `IntMin(a, b) = IntMin(b, a)` for all ints, as in
the table rows (0,1)/(1,0), expected 0, and (0,-1)/(-1,0), expected -1. -/
theorem intMin_symmetric (a b : Int) :
    IntMin a b = IntMin b a ∧ IntMin 0 1 = 0 ∧ IntMin 1 0 = 0 ∧
      IntMin 0 (-1) = -1 ∧ IntMin (-1) 0 = -1 := by
  refine ⟨?_, by decide, by decide, by decide, by decide⟩
  unfold IntMin
  split <;> split <;> omega

/-! ### Enums.go -/

/-- C20: the transition table of `ServerState`: idle goes to connected,
connected and retrying go to idle, error stays error; two transitions from
idle lead back to idle; from each of the four defined states the result is
one of the four defined states (and no panic). -/
theorem transition_table :
    transition StateIdle = .ok StateConnected ∧
    transition StateConnected = .ok StateIdle ∧
    transition StateRetrying = .ok StateIdle ∧
    transition StateError = .ok StateError ∧
    (transition StateIdle >>= transition) = .ok StateIdle ∧
    ∀ s ∈ [StateIdle, StateConnected, StateError, StateRetrying],
      ∃ t ∈ [StateIdle, StateConnected, StateError, StateRetrying], transition s = .ok t := by
  refine ⟨rfl, rfl, rfl, rfl, rfl, ?_⟩
  intro s hs
  simp only [List.mem_cons, List.mem_singleton, List.not_mem_nil, or_false] at hs
  rcases hs with rfl | rfl | rfl | rfl
  · exact ⟨StateConnected, by simp, rfl⟩
  · exact ⟨StateIdle, by simp, rfl⟩
  · exact ⟨StateError, by simp, rfl⟩
  · exact ⟨StateIdle, by simp, rfl⟩

/-! ### Recursion.go -/

theorem factorial_20_bound (k : Nat) (hk : k ≤ 20) : (k.factorial : Int) < 2 ^ 63 := by
  have h1 : k.factorial ≤ (20).factorial := Nat.factorial_le hk
  have h2 : (20).factorial = 2432902008176640000 := by decide
  have h3 : (k.factorial : Int) ≤ 2432902008176640000 := by
    rw [h2] at h1
    exact_mod_cast h1
  norm_num
  omega

theorem fact_small (k : Nat) (hk : k ≤ 20) (fuel : Nat) (hf : k < fuel) :
    fact fuel (k : Int) = some (k.factorial : Int) := by
  induction k generalizing fuel with
  | zero =>
    obtain ⟨f, rfl⟩ : ∃ f, fuel = f + 1 := ⟨fuel - 1, by omega⟩
    simp [fact]
  | succ k ih =>
    obtain ⟨f, rfl⟩ : ∃ f, fuel = f + 1 := ⟨fuel - 1, by omega⟩
    have hne : ((k + 1 : Nat) : Int) ≠ 0 := by omega
    have hw : wrapInt64 (((k + 1 : Nat) : Int) - 1) = (k : Int) := by
      have e : ((k + 1 : Nat) : Int) - 1 = (k : Int) := by push_cast; ring
      rw [e, wrapInt64_of_range _ (by norm_num; omega) (by norm_num; omega)]
    have hb := factorial_20_bound (k + 1) hk
    have hpos : (0 : Int) ≤ ((k + 1).factorial : Int) := by positivity
    have hfac : ((k + 1 : Nat) : Int) * (k.factorial : Int) = ((k + 1).factorial : Int) := by
      rw [Nat.factorial_succ, Nat.cast_mul]
    have hm : wrapInt64 (((k + 1 : Nat) : Int) * (k.factorial : Int))
        = ((k + 1).factorial : Int) := by
      rw [hfac, wrapInt64_of_range _ (le_trans (by norm_num) hpos) hb]
    simp only [fact, hne, if_false, hw, ih (by omega) f (by omega), hm]

/-- C17: for every int `n` with `0 ≤ n ≤ 20`, `fact(n)` returns (within `n + 1`
nested calls) exactly the factorial of `n`, which is below `2 ^ 63` so that no
64-bit overflow occurs; `fact(0) = 1` and `fact(5) = 120`. -/
theorem fact_is_factorial (n : Int) (h0 : 0 ≤ n) (h20 : n ≤ 20) :
    fact (n.toNat + 1) n = some (n.toNat.factorial : Int) ∧
      (n.toNat.factorial : Int) < 2 ^ 63 ∧
      fact 1 0 = some 1 ∧ fact 6 5 = some 120 := by
  obtain ⟨k, rfl⟩ : ∃ k : Nat, n = k := ⟨n.toNat, by omega⟩
  have hk : k ≤ 20 := by omega
  refine ⟨?_, ?_, by decide, by decide⟩
  · simpa using fact_small k hk (k + 1) (by omega)
  · simpa using factorial_20_bound k hk

/-- C17 at `n = 20`, the largest argument without overflow. -/
theorem fact_is_factorial_witness :
    (0 : Int) ≤ 20 ∧ (20 : Int) ≤ 20 ∧
      fact ((20 : Int).toNat + 1) 20 = some (((20 : Int).toNat.factorial : Nat) : Int) :=
  ⟨by decide, by decide, (fact_is_factorial 20 (by decide) (by decide)).1⟩

theorem fact_needs_depth (k : Nat) (hk : (k : Int) < 2 ^ 63) (fuel : Nat) (hf : fuel ≤ k) :
    fact fuel (k : Int) = none := by
  induction fuel generalizing k with
  | zero => rfl
  | succ f ih =>
    obtain ⟨j, rfl⟩ : ∃ j, k = j + 1 := ⟨k - 1, by omega⟩
    have hne : ((j + 1 : Nat) : Int) ≠ 0 := by omega
    have hw : wrapInt64 (((j + 1 : Nat) : Int) - 1) = (j : Int) := by
      have e : ((j + 1 : Nat) : Int) - 1 = (j : Int) := by push_cast; ring
      rw [e, wrapInt64_of_range _ (by norm_num; omega) (by norm_num at hk ⊢; omega)]
    simp only [fact, hne, if_false, hw, ih j (by norm_num at hk ⊢; omega) (by omega)]

theorem fact_negative (fuel : Nat) (num : Int) (h1 : num < 0) (h2 : -2 ^ 63 ≤ num)
    (hf : (fuel : Int) ≤ num + 2 ^ 64) : fact fuel num = none := by
  induction fuel generalizing num with
  | zero => rfl
  | succ f ih =>
    have hne : num ≠ 0 := by omega
    by_cases hmin : num = -2 ^ 63
    · have hw : wrapInt64 (num - 1) = ((2 ^ 63 - 1 : Nat) : Int) := by
        subst hmin
        unfold wrapInt64
        norm_num
      have := fact_needs_depth (2 ^ 63 - 1) (by norm_num) f
        (by subst hmin; norm_num at hf ⊢; omega)
      simp only [fact, hne, if_false, hw, this]
    · have hlo : -2 ^ 63 ≤ num - 1 := by norm_num at h2 hmin ⊢; omega
      have hw : wrapInt64 (num - 1) = num - 1 :=
        wrapInt64_of_range _ hlo (by norm_num; omega)
      have := ih (num - 1) (by omega) hlo (by push_cast at hf; norm_num at hf ⊢; omega)
      simp only [fact, hne, if_false, hw, this]

/-- The arguments of the nested calls that `fact(num)` makes for a negative
`num`: the call number `k` has the argument `num - k`, which is not 0, as long
as `num - k` is an `int`; the test `num == 0` fails in every one of them. -/
theorem fact_negative_arguments (num : Int) (h1 : num < 0) (k : Nat)
    (hk : -2 ^ 63 ≤ num - (k : Int)) :
    (fun x => wrapInt64 (x - 1))^[k] num = num - (k : Int) ∧ num - (k : Int) ≠ 0 := by
  induction k with
  | zero => exact ⟨by simp, by simpa using ne_of_lt h1⟩
  | succ j ih =>
    have hj : -2 ^ 63 ≤ num - (j : Int) := by push_cast at hk; omega
    obtain ⟨e, -⟩ := ih hj
    refine ⟨?_, by push_cast; omega⟩
    rw [Function.iterate_succ_apply', e, wrapInt64_of_range _ (by push_cast at hk; omega)
      (by norm_num; omega)]
    push_cast
    ring

/-- C18: the code at a negative argument.  For every int `num < 0` and every
depth of nested calls up to `maxCallDepth`, `fact(num)` returns no value; its
nested calls have the arguments `num - 1`, `num - 2`, ... (as far as these are
ints), none of which is 0, so the base case `fact(0)` is not reached and the
call ends in a stack overflow.  The claim, and the comment above `fact`, say
the recursion reaches `fact(0)` and returns. -/
theorem fact_negative_never_returns (num : Int) (h1 : -2 ^ 63 ≤ num) (h2 : num < 0)
    (depth : Nat) (hd : depth ≤ maxCallDepth) :
    fact depth num = none ∧
    ∀ k : Nat, -2 ^ 63 ≤ num - (k : Int) →
      (fun x => wrapInt64 (x - 1))^[k] num = num - (k : Int) ∧ num - (k : Int) ≠ 0 := by
  have hm : ((maxCallDepth : Nat) : Int) = 125000000 := by simp [maxCallDepth]
  have hd2 : (depth : Int) ≤ 125000000 := by rw [← hm]; exact_mod_cast hd
  exact ⟨fact_negative depth num h2 h1 (by norm_num at h1 ⊢; omega),
    fun k hk => fact_negative_arguments num h2 k hk⟩

/-- C18 at the argument -1 with 1000 nested calls admitted: no value, and the
call number 1000 has the argument -1001. -/
theorem fact_negative_never_returns_witness :
    (-2 ^ 63 : Int) ≤ -1 ∧ (-1 : Int) < 0 ∧ 1000 ≤ maxCallDepth ∧ fact 1000 (-1) = none ∧
      (fun x => wrapInt64 (x - 1))^[1000] (-1 : Int) = -1 - ((1000 : Nat) : Int) := by
  have h := fact_negative_never_returns (-1) (by norm_num) (by norm_num) 1000 (by decide)
  exact ⟨by norm_num, by norm_num, by decide, h.1, (h.2 1000 (by norm_num)).1⟩

theorem fib_needs_depth (f : Nat) (n : Int) (h2 : 2 ≤ n) (hn : n < 2 ^ 63)
    (hf : (f : Int) < n) : fib f n = none := by
  induction f generalizing n with
  | zero => rfl
  | succ g ih =>
    have hn2 : ¬ n < 2 := by omega
    have hw1 : wrapInt64 (n - 1) = n - 1 :=
      wrapInt64_of_range _ (by norm_num; omega) (by norm_num at hn ⊢; omega)
    have h1 : fib g (n - 1) = none := by
      cases g with
      | zero => rfl
      | succ j =>
        exact ih (n - 1) (by push_cast at hf; omega) (by norm_num at hn ⊢; omega)
          (by push_cast at hf ⊢; omega)
    simp only [fib, hn2, if_false, hw1, h1]

theorem fib_92_bound (k : Nat) (hk : k ≤ 92) : (Nat.fib k : Int) < 2 ^ 63 := by
  have h1 : Nat.fib k ≤ Nat.fib 92 := Nat.fib_mono hk
  have h2 : Nat.fib 92 = 7540113804746346429 := by norm_num
  have h3 : (Nat.fib k : Int) ≤ 7540113804746346429 := by
    rw [h2] at h1
    exact_mod_cast h1
  norm_num
  omega

theorem fib_exact (f : Nat) (k : Nat) (hk : k ≤ 92) (hf : k < f) :
    fib f (k : Int) = some (Nat.fib k : Int) := by
  induction f generalizing k with
  | zero => omega
  | succ f ih =>
    by_cases h2 : k < 2
    · have hk2 : (k : Int) < 2 := by omega
      have : k = 0 ∨ k = 1 := by omega
      rcases this with rfl | rfl <;> simp [fib]
    · have hk2 : ¬ (k : Int) < 2 := by omega
      obtain ⟨j, rfl⟩ : ∃ j, k = j + 2 := ⟨k - 2, by omega⟩
      have e1 : ((j + 2 : Nat) : Int) - 1 = ((j + 1 : Nat) : Int) := by push_cast; ring
      have e2 : ((j + 2 : Nat) : Int) - 2 = (j : Int) := by push_cast; ring
      have hw1 : wrapInt64 (((j + 2 : Nat) : Int) - 1) = ((j + 1 : Nat) : Int) := by
        rw [e1, wrapInt64_of_range _ (by norm_num; omega) (by norm_num; omega)]
      have hw2 : wrapInt64 (((j + 2 : Nat) : Int) - 2) = (j : Int) := by
        rw [e2, wrapInt64_of_range _ (by norm_num; omega) (by norm_num; omega)]
      have hb := fib_92_bound (j + 2) hk
      have hsum : (Nat.fib (j + 1) : Int) + (Nat.fib j : Int) = (Nat.fib (j + 2) : Int) := by
        rw [Nat.fib_add_two]; push_cast; ring
      have hpos : (0 : Int) ≤ (Nat.fib (j + 2) : Int) := by positivity
      have hm : wrapInt64 ((Nat.fib (j + 1) : Int) + (Nat.fib j : Int))
          = (Nat.fib (j + 2) : Int) := by
        rw [hsum, wrapInt64_of_range _ (le_trans (by norm_num) hpos) hb]
      simp only [fib, hk2, if_false, hw1, hw2, ih (j + 1) (by omega) (by omega),
        ih j (by omega) (by omega), hm]

/-- C19, as the claim states it, fails: `fib` does not return on every int
input.  `fib(1000000000)` nests 1 000 000 000 activations, more than any Go
stack admits: at no depth up to `maxCallDepth` does the call return a value; it
ends in a fatal stack overflow. -/
theorem fib_stack_overflow_counterexample :
    ¬ ∃ depth : Nat, depth ≤ maxCallDepth ∧ (fib depth 1000000000).isSome = true := by
  rintro ⟨depth, hd, h⟩
  have hm : ((maxCallDepth : Nat) : Int) = 125000000 := by simp [maxCallDepth]
  have hd2 : (depth : Int) ≤ 125000000 := by rw [← hm]; exact_mod_cast hd
  rw [fib_needs_depth depth 1000000000 (by norm_num) (by norm_num) (by omega)] at h
  cases h

/-- C19, amended: on a stack that admits more than 92 nested calls, the closure
`fib` returns `n` unchanged for every int `n < 2` (also a negative one); for
`0 ≤ n ≤ 92` it returns exactly the `n`-th Fibonacci number, and for
`2 ≤ n ≤ 92` that value is `fib(n-1) + fib(n-2)`, both of which return;
`fib(0) = 0`, `fib(1) = 1`, `fib(7) = 13`.  It does not return on every int:
`fib(n)` for `n ≥ 2` nests `n` activations, and returns no value when the stack
admits fewer than `n`. -/
theorem fib_computes_fibonacci (n : Int) (depth : Nat) (hd : 92 < depth) :
    (n < 2 → fib depth n = some n) ∧
    (0 ≤ n → n ≤ 92 → fib depth n = some (Nat.fib n.toNat : Int)) ∧
    (2 ≤ n → n ≤ 92 → ∃ a b, fib depth (n - 1) = some a ∧ fib depth (n - 2) = some b ∧
      fib depth n = some (a + b)) ∧
    (2 ≤ n → n < 2 ^ 63 → (depth : Int) < n → fib depth n = none) ∧
    fib depth 0 = some 0 ∧ fib depth 1 = some 1 ∧ fib depth 7 = some 13 := by
  have hex : ∀ k : Nat, k ≤ 92 → fib depth (k : Int) = some (Nat.fib k : Int) :=
    fun k hk => fib_exact depth k hk (by omega)
  refine ⟨?_, ?_, ?_, fun h2 hn hf => fib_needs_depth depth n h2 hn hf, ?_, ?_, ?_⟩
  · intro hlt
    obtain ⟨f, rfl⟩ : ∃ f, depth = f + 1 := ⟨depth - 1, by omega⟩
    simp [fib, hlt]
  · intro h0 h92
    obtain ⟨k, rfl⟩ : ∃ k : Nat, n = k := ⟨n.toNat, by omega⟩
    simpa using hex k (by omega)
  · intro h2 h92
    obtain ⟨j, rfl⟩ : ∃ j : Nat, n = ((j + 2 : Nat) : Int) := ⟨n.toNat - 2, by omega⟩
    have e1 : ((j + 2 : Nat) : Int) - 1 = ((j + 1 : Nat) : Int) := by push_cast; ring
    have e2 : ((j + 2 : Nat) : Int) - 2 = (j : Int) := by push_cast; ring
    refine ⟨(Nat.fib (j + 1) : Int), (Nat.fib j : Int), ?_, ?_, ?_⟩
    · rw [e1]; exact hex (j + 1) (by omega)
    · rw [e2]; exact hex j (by omega)
    · rw [hex (j + 2) (by omega), Nat.fib_add_two]
      push_cast
      ring_nf
  · simpa using hex 0 (by omega)
  · simpa using hex 1 (by omega)
  · simpa using hex 7 (by omega)

/-- C19, amended, at `n = 7` with 93 nested calls admitted:
`fib(7) = fib(6) + fib(5) = 8 + 5 = 13`. -/
theorem fib_computes_fibonacci_witness :
    92 < 93 ∧ fib 93 7 = some (Nat.fib (7 : Int).toNat : Int) ∧ fib 93 7 = some 13 :=
  ⟨by decide, (fib_computes_fibonacci 7 93 (by decide)).2.1 (by decide) (by decide),
    (fib_computes_fibonacci 7 93 (by decide)).2.2.2.2.2.2⟩

/-! ### WorkerPool.go with an unreachable drain count -/

theorem pool_sent_le (n e : Nat) (s : Pool) (hs : s.Inv n e) : sentCount n s.main ≤ n := by
  have hmo := hs.mainOk
  cases hmain : s.main with
  | sending k => simp only [Pool.mainOk, hmain] at hmo; simp only [sentCount]; omega
  | collecting a => simp [sentCount]
  | exited => simp [sentCount]

theorem pool_received_le (n e : Nat) (s : Pool) (hs : s.Inv n e) :
    s.received.length + s.results.buf.length + (s.workers.map heldCount).sum
      + s.jobs.buf.length = sentCount n s.main := by
  have hf := congrArg List.length hs.fifo
  rw [List.length_append, jobsFrom_length] at hf
  have := hs.count
  omega

theorem pool_stuck_when_drained (n e : Nat) (s : Pool) (hs : s.Inv n e) (he : n < e)
    (hr : s.received.length = n) (hall : ∀ w ∈ s.workers, w = WState.exited) :
    s.main = .collecting (n + 1) ∧ s.results.buf = [] ∧ ∀ a, s.step n e a = none := by
  have hsum := pool_received_le n e s hs
  have hle := pool_sent_le n e s hs
  have hmo := hs.mainOk
  have hrb : s.results.buf = [] := List.length_eq_zero.mp (by omega)
  have hne : s.workers ≠ [] := by
    intro h0
    have := hs.workersLen
    rw [h0] at this
    cases this
  obtain ⟨x, hx⟩ := List.exists_mem_of_ne_nil _ hne
  have hxe := hall x hx
  subst hxe
  have hclosed := (hs.gone hx).1
  have hmain : s.main = .collecting (n + 1) := by
    cases hm : s.main with
    | sending j =>
      simp only [Pool.mainOk, hm] at hmo
      rw [hmo.2.2.1] at hclosed
      cases hclosed
    | collecting a =>
      simp only [Pool.mainOk, hm] at hmo
      have : a = n + 1 := by omega
      rw [this]
    | exited =>
      simp only [Pool.mainOk, hm] at hmo
      omega
  refine ⟨hmain, hrb, ?_⟩
  intro a
  cases a with
  | main =>
    have hle2 : n + 1 ≤ e := he
    simp [Pool.step, hmain, hle2, Chan.recv, hrb, hs.resultsOpen]
  | worker w =>
    cases hw : s.workers[w]? with
    | none => simp [Pool.step, hmain, hw]
    | some st =>
      have hst := hall st (List.getElem?_mem hw)
      subst hst
      simp [Pool.step, hmain, hw, workerStep]

theorem pool_stuck_only_when_drained (n e : Nat) (s : Pool) (hs : s.Inv n e) (he : n < e)
    (hstuck : ∀ a, s.step n e a = none) :
    s.received.length = n ∧ (∀ w ∈ s.workers, w = WState.exited) ∧
      s.main = .collecting (n + 1) := by
  have hsum := pool_received_le n e s hs
  have hle := pool_sent_le n e s hs
  have hmo := hs.mainOk
  cases hmain : s.main with
  | sending j =>
    exfalso
    simp only [Pool.mainOk, hmain] at hmo
    simp only [hmain, sentCount] at hsum
    have := hstuck .main
    by_cases hj : j ≤ n
    · have hlt : s.jobs.buf.length < s.jobs.cap := by rw [hs.jobsCap]; omega
      simp [Pool.step, hmain, hj, Chan.send, hlt] at this
    · simp [Pool.step, hmain, hj] at this
  | exited =>
    exfalso
    simp only [Pool.mainOk, hmain] at hmo
    omega
  | collecting a =>
    simp only [Pool.mainOk, hmain] at hmo
    simp only [hmain, sentCount] at hsum
    obtain ⟨h1, h2, h3, h4⟩ := hmo
    have ha : a ≤ e := by omega
    have hrb : s.results.buf = [] := by
      cases hb : s.results.buf with
      | nil => rfl
      | cons r rest =>
        have := hstuck .main
        simp [Pool.step, hmain, ha, Chan.recv, hb] at this
    rw [hrb, List.length_nil] at hsum
    have hall : ∀ w ∈ s.workers, w = WState.exited := by
      rcases workers_cases s.workers with ⟨i, j, hw⟩ | ⟨i, hw⟩ | hall
      · exfalso
        have hpos := heldCount_sum_pos _ i j hw
        have hlt : s.results.buf.length < s.results.cap := by
          rw [hs.resultsCap, hrb, List.length_nil]; omega
        have := hstuck (.worker i)
        simp [Pool.step, hmain, hw, workerStep, Chan.send, hlt] at this
      · exfalso
        have := hstuck (.worker i)
        cases hjb : s.jobs.buf with
        | cons j rest => simp [Pool.step, hmain, hw, workerStep, Chan.recv, hjb] at this
        | nil => simp [Pool.step, hmain, hw, workerStep, Chan.recv, hjb, h3] at this
      · exact hall
    have hne : s.workers ≠ [] := by
      intro h0
      have := hs.workersLen
      rw [h0] at this
      cases this
    obtain ⟨x, hx⟩ := List.exists_mem_of_ne_nil _ hne
    have hxe := hall x hx
    subst hxe
    have hbuf := (hs.gone hx).2
    rw [hbuf, List.length_nil, heldCount_sum_exited _ hall] at hsum
    refine ⟨by omega, hall, ?_⟩
    have : a = n + 1 := by omega
    rw [this]

/-- C11: in the `WorkerPool.go` pattern with `n` jobs submitted and a collecting
loop that waits for `e > n` results, under every schedule: main never returns;
once the `n` results have been received and all workers have left their
loops, main is blocked at the receive number `n + 1` on an empty `results`
and no step is enabled for any goroutine; every execution is finite and the
only state without an enabled step is that one, so every execution ends in
this hang. -/
theorem drain_hangs_when_expected_unreachable (n e : Nat) (he : n < e)
    (acts : List PoolAct) (s : Pool) (h : Pool.run n e acts (Pool.init n) = some s) :
    s.main ≠ .exited ∧
    (s.received.length = n → (∀ w ∈ s.workers, w = WState.exited) →
      s.main = .collecting (n + 1) ∧ s.results.buf = [] ∧ ∀ a, s.step n e a = none) ∧
    ((∀ a, s.step n e a = none) →
      s.received.length = n ∧ (∀ w ∈ s.workers, w = WState.exited) ∧
        s.main = .collecting (n + 1)) ∧
    acts.length ≤ 4 * n + e + 5 := by
  have hs := pool_inv_run n e acts _ s (pool_inv_init n e) h
  have hμ := pool_measure_run n e acts _ s h
  refine ⟨?_, pool_stuck_when_drained n e s hs he, pool_stuck_only_when_drained n e s hs he, ?_⟩
  · intro hm
    have hmo := hs.mainOk
    simp only [Pool.mainOk, hm] at hmo
    have hsum := pool_received_le n e s hs
    have hle := pool_sent_le n e s hs
    omega
  · have : (Pool.init n).measure n e = 4 * n + e + 5 := by
      simp only [Pool.measure, Pool.init, mainRank, Chan.make, List.replicate, List.map_cons,
        List.map_nil, workerRank, List.sum_cons, List.sum_nil, List.length_nil]
      omega
    omega

/-- C11 at one job and a collecting loop waiting for two results: after the one
result is received and the three workers have returned, nothing can step. -/
theorem drain_hangs_when_expected_unreachable_witness :
    (1 : Nat) < 2 ∧ Pool.run 1 2 hangSchedule (Pool.init 1) = some hangFinal ∧
    hangFinal.received.length = 1 ∧ (∀ w ∈ hangFinal.workers, w = WState.exited) ∧
    hangFinal.main = .collecting (1 + 1) ∧ hangFinal.results.buf = [] ∧
    ∀ a, hangFinal.step 1 2 a = none :=
  ⟨by decide, by decide, rfl, by decide,
    (drain_hangs_when_expected_unreachable 1 2 (by decide) hangSchedule hangFinal
      (by decide)).2.1 rfl (by decide)⟩

/-! ### StatefulGoroutines2.go -/

theorem incrementsUpTo_zero (cmd : CounterCommand) (rest : List CounterCommand) :
    incrementsUpTo (cmd :: rest) 0 = if cmd.increment then 1 else 0 := by
  cases h : cmd.increment <;> simp [incrementsUpTo, h]

theorem incrementsUpTo_succ (cmd : CounterCommand) (rest : List CounterCommand) (i : Nat) :
    incrementsUpTo (cmd :: rest) (i + 1)
      = (if cmd.increment then 1 else 0) + incrementsUpTo rest i := by
  cases h : cmd.increment
  · simp [incrementsUpTo, h, List.filter_cons]
  · simp [incrementsUpTo, h, List.filter_cons]
    omega

theorem counterLoop_step (k : Nat) (cmd : CounterCommand) (h : (k : Int) + 1 < 2 ^ 63) :
    (if cmd.increment then wrapInt64 ((k : Int) + 1) else (k : Int))
      = ((k + if cmd.increment then 1 else 0 : Nat) : Int) := by
  cases hi : cmd.increment
  · simp
  · simp only [if_true]
    rw [wrapInt64_of_range _ (by norm_num; omega) h]
    push_cast
    ring

theorem counterLoop_reply (cmds : List CounterCommand) (k : Nat)
    (hlen : (k : Int) + cmds.length < 2 ^ 63)
    (hresp : ∀ cmd ∈ cmds, cmd.get = true → cmd.response ≠ none) :
    (counterLoop k cmds).length = cmds.length ∧
    ∀ (i : Nat) (cmd : CounterCommand), cmds[i]? = some cmd →
      (counterLoop k cmds)[i]? = some (if cmd.get then
        cmd.response.map (fun ch => (ch, ((k + incrementsUpTo cmds i : Nat) : Int))) else none) := by
  induction cmds generalizing k with
  | nil => exact ⟨rfl, by simp⟩
  | cons c rest ih =>
    simp only [List.length_cons, Nat.cast_add, Nat.cast_one] at hlen
    have hk : (k : Int) + 1 < 2 ^ 63 := by omega
    have hstep := counterLoop_step k c hk
    have hrest := ih (k + if c.increment then 1 else 0)
      (by split <;> push_cast <;> omega)
      (fun cmd hcmd => hresp cmd (List.mem_cons_of_mem _ hcmd))
    cases hg : c.get with
    | false =>
      simp only [counterLoop, hg, hstep, Bool.false_eq_true, if_false]
      refine ⟨by rw [List.length_cons, List.length_cons, hrest.1], ?_⟩
      intro i cmd hi
      cases i with
      | zero =>
        simp only [List.getElem?_cons_zero, Option.some.injEq] at hi
        subst hi
        simp [hg]
      | succ j =>
        simp only [List.getElem?_cons_succ] at hi ⊢
        rw [hrest.2 j cmd hi, incrementsUpTo_succ, Nat.add_assoc]
    | true =>
      obtain ⟨ch, hch⟩ : ∃ ch, c.response = some ch := by
        cases hr : c.response with
        | none => exact absurd hr (hresp c (by simp) hg)
        | some ch => exact ⟨ch, rfl⟩
      simp only [counterLoop, hg, hstep, hch, if_true]
      refine ⟨by rw [List.length_cons, List.length_cons, hrest.1], ?_⟩
      intro i cmd hi
      cases i with
      | zero =>
        simp only [List.getElem?_cons_zero, Option.some.injEq] at hi
        subst hi
        simp [hg, hch, incrementsUpTo_zero]
      | succ j =>
        simp only [List.getElem?_cons_succ] at hi ⊢
        rw [hrest.2 j cmd hi, incrementsUpTo_succ, Nat.add_assoc]

/-- C12: for every finite sequence of commands sent on `cmdChan` (fewer than
`2 ^ 63` of them, each `get` carrying a response channel), the stateful
goroutine handles every command, and to each command with `get = true` it
replies, on that command's channel, the number of commands with
`increment = true` up to and including that command (so a command with both
flags set gets the incremented value); a command without `get` gets no reply.
For main's sequence the two replies are 1 and then 2. -/
theorem stateful_counter_replies (cmds : List CounterCommand)
    (hlen : (cmds.length : Int) < 2 ^ 63)
    (hresp : ∀ cmd ∈ cmds, cmd.get = true → cmd.response ≠ none) :
    (counterLoop 0 cmds).length = cmds.length ∧
    (∀ (i : Nat) (cmd : CounterCommand) (ch : Nat), cmds[i]? = some cmd → cmd.get = true →
      cmd.response = some ch →
      (counterLoop 0 cmds)[i]? = some (some (ch, (incrementsUpTo cmds i : Int)))) ∧
    (∀ (i : Nat) (cmd : CounterCommand), cmds[i]? = some cmd → cmd.get = false →
      (counterLoop 0 cmds)[i]? = some none) ∧
    counterLoop 0 mainCommands = [none, some (0, 1), none, some (0, 2)] := by
  have h := counterLoop_reply cmds 0 (by simpa using hlen) hresp
  simp only [Nat.cast_zero, Nat.zero_add] at h
  refine ⟨h.1, ?_, ?_, by decide⟩
  · intro i cmd ch hi hg hch
    rw [h.2 i cmd hi]
    simp [hg, hch]
  · intro i cmd hi hg
    rw [h.2 i cmd hi]
    simp [hg]

/-- C12 at a sequence with a command that has both flags set. -/
theorem stateful_counter_replies_witness :
    (([⟨true, false, none⟩, ⟨true, true, some 3⟩, ⟨false, true, some 4⟩] :
        List CounterCommand).length : Int) < 2 ^ 63 ∧
    (counterLoop 0 [⟨true, false, none⟩, ⟨true, true, some 3⟩, ⟨false, true, some 4⟩])[1]?
      = some (some (3, (incrementsUpTo
          [⟨true, false, none⟩, ⟨true, true, some 3⟩, ⟨false, true, some 4⟩] 1 : Int))) ∧
    incrementsUpTo [⟨true, false, none⟩, ⟨true, true, some 3⟩, ⟨false, true, some 4⟩] 1 = 2 :=
  ⟨by norm_num,
    (stateful_counter_replies [⟨true, false, none⟩, ⟨true, true, some 3⟩, ⟨false, true, some 4⟩]
      (by norm_num) (by decide)).2.1 1 ⟨true, true, some 3⟩ 3 rfl rfl rfl,
    by decide⟩

/-! ### Mutexes.go and Mutexes2.go -/

theorem getElem?_set_cases {α : Type} (l : List α) (w i : Nat) (x y : α)
    (h : (l.set w x)[i]? = some y) : (i = w ∧ x = y) ∨ (i ≠ w ∧ l[i]? = some y) := by
  rw [List.getElem?_set] at h
  split at h
  · rename_i hw
    split at h
    · exact Or.inl ⟨hw.symm, by simpa using h⟩
    · cases h
  · rename_i hw
    exact Or.inr ⟨fun e => hw e.symm, h⟩

theorem getElem?_set_here {α : Type} (l : List α) (g : Nat) (old x : α)
    (h : l[g]? = some old) : (l.set g x)[g]? = some x := by
  have hlt : g < l.length := by
    by_contra hge
    rw [List.getElem?_eq_none (by omega)] at h
    cases h
  rw [List.getElem?_set_self hlt]

theorem list_sum_map_set {α M : Type} [AddCommMonoid M] (f : α → M) (l : List α) (i : Nat)
    (old new : α) (h : l[i]? = some old) :
    ((l.set i new).map f).sum + f old = (l.map f).sum + f new := by
  induction l generalizing i with
  | nil => simp at h
  | cons x xs ih =>
    cases i with
    | zero =>
      simp only [List.getElem?_cons_zero, Option.some.injEq] at h
      subst h
      simp only [List.set_cons_zero, List.map_cons, List.sum_cons]
      rw [add_comm (f new), add_assoc, add_comm (f x), add_comm (f new), add_assoc]
    | succ k =>
      simp only [List.getElem?_cons_succ] at h
      simp only [List.set_cons_succ, List.map_cons, List.sum_cons, add_assoc, ih k h]

theorem map_fst_set (l : List (Task × GPc)) (g : Nat) (t : Task) (pc pc2 : GPc)
    (h : l[g]? = some (t, pc)) : (l.set g (t, pc2)).map Prod.fst = l.map Prod.fst := by
  induction l generalizing g with
  | nil => simp at h
  | cons x xs ih =>
    cases g with
    | zero =>
      simp only [List.getElem?_cons_zero, Option.some.injEq] at h
      subst h
      rfl
    | succ k =>
      simp only [List.getElem?_cons_succ] at h
      simp only [List.set_cons_succ, List.map_cons, ih k h]

theorem mapGet_mapSet (m : List (String × Int)) (name : String) (x : Int) (k : String) :
    mapGet (mapSet m name x) k = if k = name then x else mapGet m k := by
  induction m with
  | nil =>
    by_cases hk : k = name
    · simp [mapSet, mapGet, hk]
    · have hk2 : ¬ name = k := fun e => hk e.symm
      simp [mapSet, mapGet, hk, hk2]
  | cons p rest ih =>
    obtain ⟨q, w⟩ := p
    by_cases hq : q = name
    · by_cases hk : k = name
      · simp [mapSet, mapGet, hq, hk]
      · have hk2 : ¬ name = k := fun e => hk e.symm
        simp [mapSet, mapGet, hq, hk, hk2]
    · by_cases hqk : q = k
      · have hk : ¬ k = name := fun e => hq (hqk.trans e)
        simp [mapSet, mapGet, hq, hqk, hk]
      · simp [mapSet, mapGet, hq, hqk, ih]

theorem mapSet_keys (m : List (String × Int)) (name : String) (x : Int)
    (h : name ∈ m.map Prod.fst) : (mapSet m name x).map Prod.fst = m.map Prod.fst := by
  induction m with
  | nil => simp at h
  | cons p rest ih =>
    obtain ⟨q, w⟩ := p
    by_cases hq : q = name
    · simp [mapSet, hq]
    · have : name ∈ rest.map Prod.fst := by
        simp only [List.map_cons, List.mem_cons] at h
        rcases h with h | h
        · exact absurd h.symm hq
        · exact h
      simp [mapSet, hq, ih this]

theorem contrib_bound (k : String) (t : Task) (pc : GPc) (h : pcOk t pc) :
    -(t.n : Int) ≤ contrib k (t, pc) ∧ contrib k (t, pc) ≤ (t.n : Int) := by
  unfold contrib
  cases pc <;> simp only [pcOk, completed] at h ⊢ <;> split <;> try split
  all_goals constructor <;> omega

theorem contrib_sum_bound (k : String) (l : List (Task × GPc))
    (h : ∀ (g : Nat) (t : Task) (pc : GPc), l[g]? = some (t, pc) → pcOk t pc) :
    -(totalCalls (l.map Prod.fst) : Int) ≤ (l.map (contrib k)).sum ∧
      (l.map (contrib k)).sum ≤ (totalCalls (l.map Prod.fst) : Int) := by
  induction l with
  | nil => simp [totalCalls]
  | cons p rest ih =>
    obtain ⟨t, pc⟩ := p
    have h0 := contrib_bound k t pc (h 0 t pc (by simp))
    have ih2 := ih (fun g t2 pc2 hg => h (g + 1) t2 pc2 (by simpa using hg))
    simp only [totalCalls, List.map_cons, List.sum_cons, Nat.cast_add] at ih2 ⊢
    omega

theorem holder_update (l : List (Task × GPc)) (mu mu2 : Option Nat) (g : Nat) (t : Task)
    (pc2 : GPc)
    (hold : ∀ (g : Nat) (t : Task) (pc : GPc), l[g]? = some (t, pc) →
      (pc.inCrit = true ↔ mu = some g))
    (h1 : pc2.inCrit = true ↔ mu2 = some g)
    (h2 : ∀ g2, g2 ≠ g → (mu = some g2 ↔ mu2 = some g2)) :
    ∀ (g2 : Nat) (t2 : Task) (q : GPc), (l.set g (t, pc2))[g2]? = some (t2, q) →
      (q.inCrit = true ↔ mu2 = some g2) := by
  intro g2 t2 q hq
  rcases getElem?_set_cases _ _ _ _ _ hq with ⟨rfl, he⟩ | ⟨hne, hold2⟩
  · cases he
    exact h1
  · rw [hold g2 t2 q hold2]
    exact h2 g2 hne

theorem bounds_update (l : List (Task × GPc)) (g : Nat) (t : Task) (pc2 : GPc)
    (hb : ∀ (g : Nat) (t : Task) (pc : GPc), l[g]? = some (t, pc) → pcOk t pc)
    (h : pcOk t pc2) :
    ∀ (g2 : Nat) (t2 : Task) (q : GPc), (l.set g (t, pc2))[g2]? = some (t2, q) → pcOk t2 q := by
  intro g2 t2 q hq
  rcases getElem?_set_cases _ _ _ _ _ hq with ⟨rfl, he⟩ | ⟨hne, hold2⟩
  · cases he
    exact h
  · exact hb g2 t2 q hold2

theorem held_update (l : List (Task × GPc)) (mu : Option Nat) (g : Nat) (t : Task)
    (pc pc2 : GPc) (hg : l[g]? = some (t, pc)) (hc : pc.inCrit = true → pc2.inCrit = true)
    (held : ∀ h : Nat, mu = some h → ∃ t pc, l[h]? = some (t, pc) ∧ pc.inCrit = true) :
    ∀ h : Nat, mu = some h →
      ∃ t3 q, (l.set g (t, pc2))[h]? = some (t3, q) ∧ q.inCrit = true := by
  intro h hm
  obtain ⟨t3, q, hq, hcr⟩ := held h hm
  by_cases e : h = g
  · subst e
    rw [hg] at hq
    cases hq
    exact ⟨t, pc2, getElem?_set_here _ _ _ _ hg, hc hcr⟩
  · exact ⟨t3, q, by rw [List.getElem?_set_ne (Ne.symm e)]; exact hq, hcr⟩

theorem fresh_update (l : List (Task × GPc)) (c : List (String × Int)) (g : Nat) (t : Task)
    (pc2 : GPc)
    (hf : ∀ (g : Nat) (t : Task) (i : Nat) (v : Int), l[g]? = some (t, GPc.read i v) →
      v = mapGet c t.name)
    (h : ∀ i v, pc2 = GPc.read i v → v = mapGet c t.name) :
    ∀ (g2 : Nat) (t2 : Task) (i : Nat) (v : Int),
      (l.set g (t, pc2))[g2]? = some (t2, GPc.read i v) → v = mapGet c t2.name := by
  intro g2 t2 i v hq
  rcases getElem?_set_cases _ _ _ _ _ hq with ⟨rfl, he⟩ | ⟨hne, hold2⟩
  · cases he
    exact h i v rfl
  · exact hf g2 t2 i v hold2

theorem mutex_inv_init (keys : List String) (tasks : List Task) :
    (MutexSys.init keys tasks).Inv keys tasks where
  tasksOk := by simp [MutexSys.init, List.map_map, Function.comp_def]
  holder := by
    intro g t pc h
    simp only [MutexSys.init, List.getElem?_map] at h
    cases ht : tasks[g]? with
    | none => simp [ht] at h
    | some t2 =>
      simp only [ht, Option.map_some', Option.some.injEq, Prod.mk.injEq] at h
      obtain ⟨-, rfl⟩ := h
      simp [GPc.inCrit, MutexSys.init]
  held := by simp [MutexSys.init]
  bounds := by
    intro g t pc h
    simp only [MutexSys.init, List.getElem?_map] at h
    cases ht : tasks[g]? with
    | none => simp [ht] at h
    | some t2 =>
      simp only [ht, Option.map_some', Option.some.injEq, Prod.mk.injEq] at h
      obtain ⟨-, rfl⟩ := h
      simp [pcOk]
  fresh := by
    intro g t i v h
    simp only [MutexSys.init, List.getElem?_map] at h
    cases ht : tasks[g]? with
    | none => simp [ht] at h
    | some t2 => simp [ht] at h
  account := by
    intro k
    have h1 : ∀ ks : List String, mapGet (ks.map (fun k => (k, (0 : Int)))) k = 0 := by
      intro ks
      induction ks with
      | nil => rfl
      | cons q rest ih => simp only [List.map_cons, mapGet, ih]; split <;> rfl
    have h2 : ∀ ts : List Task, ((ts.map (fun t => (t, GPc.loop 0))).map (contrib k)).sum = 0 := by
      intro ts
      induction ts with
      | nil => rfl
      | cons q rest ih =>
        simp only [List.map_cons, List.sum_cons, ih, contrib, completed]
        split <;> simp
    simp only [MutexSys.init, h1, h2]
  keysOk := by
    intro _
    simp [MutexSys.init, List.map_map, Function.comp_def]

theorem mutex_inv_step (keys : List String) (tasks : List Task) (s s2 : MutexSys) (g : Nat)
    (htot : (totalCalls tasks : Int) < 2 ^ 63) (hs : s.Inv keys tasks)
    (h : s.step g = some s2) : s2.Inv keys tasks ∧ s2.measure < s.measure := by
  simp only [MutexSys.step] at h
  split at h
  · cases h
  · rename_i t pc hg
    have hcrit := hs.holder g t pc hg
    have hok := hs.bounds g t pc hg
    have htasks : ∀ q, (s.gs.set g (t, q)).map Prod.fst = tasks := fun q => by
      rw [map_fst_set _ _ _ _ _ hg]; exact hs.tasksOk
    have hmeas : ∀ q, gRank (t, q) < gRank (t, pc) →
        ((s.gs.set g (t, q)).map gRank).sum < (s.gs.map gRank).sum := by
      intro q hq
      have := list_sum_map_set gRank s.gs g (t, pc) (t, q) hg
      omega
    have hacc : ∀ q k, contrib k (t, q) = contrib k (t, pc) →
        ((s.gs.set g (t, q)).map (contrib k)).sum = (s.gs.map (contrib k)).sum := by
      intro q k hq
      have := list_sum_map_set (contrib k) s.gs g (t, pc) (t, q) hg
      rw [hq] at this
      exact add_right_cancel this
    cases pc with
    | loop i =>
      simp only [pcOk] at hok
      simp only [GPc.inCrit, Bool.false_eq_true, false_iff] at hcrit
      simp only at h
      split at h
      · rename_i hlt
        split at h
        · rename_i hmu
          cases h
          refine ⟨⟨htasks _, ?_, ?_, ?_, ?_, ?_, hs.keysOk⟩, hmeas _ ?_⟩
          · refine holder_update s.gs s.mu (some g) g t _ hs.holder (by simp [GPc.inCrit]) ?_
            intro g2 hne
            rw [hmu]
            constructor
            · intro e; cases e
            · intro e; exact absurd (Option.some.inj e).symm hne
          · intro h2 hh
            cases hh
            exact ⟨t, _, getElem?_set_here _ _ _ _ hg, rfl⟩
          · exact bounds_update s.gs g t _ hs.bounds (by simpa [pcOk] using hlt)
          · exact fresh_update s.gs s.counters g t _ hs.fresh (by intro i v e; cases e)
          · intro k
            rw [hacc _ k (by simp [contrib, completed])]
            exact hs.account k
          · simp only [gRank]; omega
        · cases h
      · rename_i hge
        cases h
        have hin : i = t.n := by omega
        refine ⟨⟨htasks _, ?_, ?_, ?_, ?_, ?_, hs.keysOk⟩, hmeas _ ?_⟩
        · exact holder_update s.gs s.mu s.mu g t _ hs.holder
            (by simpa [GPc.inCrit] using hcrit) (fun _ _ => Iff.rfl)
        · exact held_update s.gs s.mu g t _ _ hg (by simp [GPc.inCrit]) hs.held
        · exact bounds_update s.gs g t _ hs.bounds (by simp [pcOk])
        · exact fresh_update s.gs s.counters g t _ hs.fresh (by intro i v e; cases e)
        · intro k
          rw [hacc _ k (by simp [contrib, completed, hin])]
          exact hs.account k
        · simp only [gRank]; omega
    | locked i =>
      simp only [pcOk] at hok
      simp only [GPc.inCrit, true_iff] at hcrit
      simp only at h
      cases h
      refine ⟨⟨htasks _, ?_, ?_, ?_, ?_, ?_, hs.keysOk⟩, hmeas _ ?_⟩
      · exact holder_update s.gs s.mu s.mu g t _ hs.holder
          (by simpa [GPc.inCrit] using hcrit) (fun _ _ => Iff.rfl)
      · exact held_update s.gs s.mu g t _ _ hg (by simp [GPc.inCrit]) hs.held
      · exact bounds_update s.gs g t _ hs.bounds (by simpa [pcOk] using hok)
      · exact fresh_update s.gs s.counters g t _ hs.fresh (by
          intro j v e
          cases e
          rfl)
      · intro k
        rw [hacc _ k (by simp [contrib, completed])]
        exact hs.account k
      · simp only [gRank]; omega
    | read i v =>
      simp only [pcOk] at hok
      simp only [GPc.inCrit, true_iff] at hcrit
      simp only at h
      cases h
      have hv := hs.fresh g t i v hg
      have hb2 := bounds_update s.gs g t (GPc.wrote i) hs.bounds (by simpa [pcOk] using hok)
      have hsum := contrib_sum_bound t.name _ hb2
      rw [htasks] at hsum
      have hstep := list_sum_map_set (contrib t.name) s.gs g (t, GPc.read i v)
        (t, GPc.wrote i) hg
      have hold := hs.account t.name
      have hval : wrapInt64 (if t.isInc = true then v + 1 else v - 1)
          = ((s.gs.set g (t, GPc.wrote i)).map (contrib t.name)).sum := by
        have hx : (if t.isInc = true then v + 1 else v - 1)
            = ((s.gs.set g (t, GPc.wrote i)).map (contrib t.name)).sum := by
          simp only [contrib, completed, if_true] at hstep
          cases hinc : t.isInc <;> simp only [hinc, if_true, if_false, Bool.false_eq_true]
            at hstep ⊢ <;> push_cast at hstep <;> omega
        rw [hx]
        generalize ((s.gs.set g (t, GPc.wrote i)).map (contrib t.name)).sum = total at hsum ⊢
        clear hx hstep
        exact wrapInt64_of_range total (by norm_num at htot ⊢; omega)
          (by norm_num at htot ⊢; omega)
      refine ⟨⟨htasks _, ?_, ?_, ?_, ?_, ?_, ?_⟩, hmeas _ ?_⟩
      · exact holder_update s.gs s.mu s.mu g t _ hs.holder
          (by simpa [GPc.inCrit] using hcrit) (fun _ _ => Iff.rfl)
      · exact held_update s.gs s.mu g t _ _ hg (by simp [GPc.inCrit]) hs.held
      · exact hb2
      · intro g2 t2 j w hq
        rcases getElem?_set_cases _ _ _ _ _ hq with ⟨-, he⟩ | ⟨hne, hold2⟩
        · cases he
        · exfalso
          have := (hs.holder g2 t2 _ hold2).mp rfl
          rw [hcrit] at this
          exact hne (Option.some.inj this).symm
      · intro k
        rw [mapGet_mapSet]
        by_cases hk : k = t.name
        · subst hk
          simp only [if_true]
          exact hval
        · have hk2 : ¬ t.name = k := fun e => hk e.symm
          simp only [hk, if_false]
          rw [hacc _ k (by simp [contrib, hk2])]
          exact hs.account k
      · intro hall
        have hkeys := hs.keysOk hall
        have hmem : t ∈ tasks := by
          rw [← hs.tasksOk]
          exact List.mem_map.mpr ⟨(t, GPc.read i v), List.getElem?_mem hg, rfl⟩
        rw [mapSet_keys _ _ _ (by rw [hkeys]; exact hall t hmem)]
        exact hkeys
      · simp only [gRank]; omega
    | wrote i =>
      simp only [pcOk] at hok
      simp only [GPc.inCrit, true_iff] at hcrit
      simp only at h
      cases h
      refine ⟨⟨htasks _, ?_, ?_, ?_, ?_, ?_, hs.keysOk⟩, hmeas _ ?_⟩
      · refine holder_update s.gs s.mu none g t _ hs.holder (by simp [GPc.inCrit]) ?_
        intro g2 hne
        rw [hcrit]
        constructor
        · intro e; exact absurd (Option.some.inj e).symm hne
        · intro e; cases e
      · intro h2 hh
        cases hh
      · exact bounds_update s.gs g t _ hs.bounds (by simp only [pcOk]; omega)
      · exact fresh_update s.gs s.counters g t _ hs.fresh (by intro j v e; cases e)
      · intro k
        rw [hacc _ k (by simp [contrib, completed])]
        exact hs.account k
      · simp only [gRank]; omega
    | done =>
      simp only at h
      cases h

theorem mutex_inv_run (keys : List String) (tasks : List Task) (acts : List Nat)
    (s s2 : MutexSys) (htot : (totalCalls tasks : Int) < 2 ^ 63) (hs : s.Inv keys tasks)
    (h : MutexSys.run acts s = some s2) :
    s2.Inv keys tasks ∧ acts.length + s2.measure ≤ s.measure := by
  induction acts generalizing s with
  | nil => simp only [MutexSys.run, Option.some.injEq] at h; subst h; exact ⟨hs, by simp⟩
  | cons a rest ih =>
    simp only [MutexSys.run] at h
    split at h
    · rename_i u hu
      obtain ⟨h1, h2⟩ := mutex_inv_step keys tasks s u a htot hs hu
      obtain ⟨h3, h4⟩ := ih u h1 h
      exact ⟨h3, by simp only [List.length_cons]; omega⟩
    · cases h

theorem mutex_not_stuck (keys : List String) (tasks : List Task) (s : MutexSys)
    (hs : s.Inv keys tasks) (hnd : ¬ s.allDone) : ∃ g, (s.step g).isSome = true := by
  cases hmu : s.mu with
  | some h =>
    obtain ⟨t, pc, hq, hc⟩ := hs.held h hmu
    refine ⟨h, ?_⟩
    cases pc <;> simp [GPc.inCrit] at hc <;> simp [MutexSys.step, hq]
  | none =>
    simp only [MutexSys.allDone, not_forall] at hnd
    obtain ⟨p, hp, hne⟩ := hnd
    obtain ⟨g, hg⟩ := List.mem_iff_getElem?.mp hp
    obtain ⟨t, pc⟩ := p
    have hc := hs.holder g t pc hg
    rw [hmu] at hc
    refine ⟨g, ?_⟩
    cases pc with
    | loop i =>
      by_cases hlt : i < t.n
      · simp [MutexSys.step, hg, hlt, hmu]
      · simp [MutexSys.step, hg, hlt]
    | locked i => simp [GPc.inCrit] at hc
    | read i v => simp [GPc.inCrit] at hc
    | wrote i => simp [GPc.inCrit] at hc
    | done => exact absurd rfl hne

theorem contrib_sum_done (k : String) (l : List (Task × GPc)) (h : ∀ p ∈ l, p.2 = GPc.done) :
    (l.map (contrib k)).sum = netCalls (l.map Prod.fst) k := by
  induction l with
  | nil => rfl
  | cons p rest ih =>
    obtain ⟨t, pc⟩ := p
    have hpc : pc = GPc.done := h (t, pc) (by simp)
    subst hpc
    have := ih (fun q hq => h q (by simp [hq]))
    simp only [netCalls, List.map_cons, List.sum_cons] at this ⊢
    rw [this]
    simp [contrib, completed, Task.net]

theorem mutex_measure_init (keys : List String) (tasks : List Task) :
    (MutexSys.init keys tasks).measure = 4 * totalCalls tasks + tasks.length := by
  simp only [MutexSys.measure, MutexSys.init, totalCalls]
  induction tasks with
  | nil => rfl
  | cons t rest ih =>
    simp only [List.map_cons, List.sum_cons, List.length_cons, gRank] at ih ⊢
    omega

/-- What holds of every run of the mutex programs: it is finite, it is never
stuck before every goroutine is done, and then every counter holds the number
of `inc` calls minus the number of `dec` calls on its key. -/
theorem mutex_runs (keys : List String) (tasks : List Task)
    (htot : (totalCalls tasks : Int) < 2 ^ 63) (acts : List Nat) (s : MutexSys)
    (h : MutexSys.run acts (MutexSys.init keys tasks) = some s) :
    acts.length ≤ 4 * totalCalls tasks + tasks.length ∧
    (¬ s.allDone → ∃ g, (s.step g).isSome = true) ∧
    (s.allDone → ∀ k, mapGet s.counters k = netCalls tasks k) ∧
    ((∀ t ∈ tasks, t.name ∈ keys) → s.counters.map Prod.fst = keys) := by
  obtain ⟨hs, hμ⟩ := mutex_inv_run keys tasks acts _ s htot (mutex_inv_init keys tasks) h
  rw [mutex_measure_init] at hμ
  refine ⟨by omega, mutex_not_stuck keys tasks s hs, ?_, hs.keysOk⟩
  intro hd k
  rw [hs.account k, contrib_sum_done k s.gs hd, hs.tasksOk]

theorem map_of_two_keys (m : List (String × Int)) (a b : String) (hab : a ≠ b)
    (h : m.map Prod.fst = [a, b]) : m = [(a, mapGet m a), (b, mapGet m b)] := by
  match m, h with
  | [(k1, v1), (k2, v2)], h =>
    simp only [List.map_cons, List.map_nil, List.cons.injEq, and_true] at h
    obtain ⟨rfl, rfl⟩ := h
    simp [mapGet, hab]

theorem map_of_one_key (m : List (String × Int)) (a : String)
    (h : m.map Prod.fst = [a]) : m = [(a, mapGet m a)] := by
  match m, h with
  | [(k1, v1)], h =>
    simp only [List.map_cons, List.map_nil, List.cons.injEq, and_true] at h
    subst h
    simp [mapGet]

/-- C13: `Mutexes.go` with any goroutines `doInc`/`doDec` on the counters
`{a: 0, b: 0}` (fewer than `2 ^ 63` calls in total), under every schedule:
the execution is finite, it is never stuck before all goroutines are done,
and then the value of every key is the number of `inc` calls minus the number
of `dec` calls on that key; for the five goroutines of main the final map is
`{a: 19710, b: 9799}`. -/
theorem mutex_counters_final (tasks : List Task) (htot : (totalCalls tasks : Int) < 2 ^ 63)
    (acts : List Nat) (s : MutexSys)
    (h : MutexSys.run acts (MutexSys.init ["a", "b"] tasks) = some s) :
    acts.length ≤ 4 * totalCalls tasks + tasks.length ∧
    (¬ s.allDone → ∃ g, (s.step g).isSome = true) ∧
    (s.allDone →
      (∀ k, mapGet s.counters k = netCalls tasks k) ∧
      (tasks = mutexesTasks → s.counters = [("a", 19710), ("b", 9799)])) := by
  obtain ⟨h1, h2, h3, h4⟩ := mutex_runs ["a", "b"] tasks htot acts s h
  refine ⟨h1, h2, fun hd => ⟨h3 hd, ?_⟩⟩
  intro ht
  subst ht
  have hk := h4 (by decide)
  have hm := map_of_two_keys s.counters "a" "b" (by decide) hk
  rw [h3 hd "a", h3 hd "b"] at hm
  rw [hm]
  have ha : netCalls mutexesTasks "a" = 19710 := by decide
  have hb : netCalls mutexesTasks "b" = 9799 := by decide
  rw [ha, hb]

/-- C13 at the tasks `doInc("a", 2)` and `doDec("b", 1)` and a complete
schedule: the final map is `{a: 2, b: -1}`. -/
theorem mutex_counters_final_witness :
    (totalCalls [⟨"a", true, 2⟩, ⟨"b", false, 1⟩] : Int) < 2 ^ 63 ∧
    MutexSys.run mutexSchedule (MutexSys.init ["a", "b"] [⟨"a", true, 2⟩, ⟨"b", false, 1⟩])
      = some mutexFinal ∧
    mutexFinal.allDone ∧
    ∀ k, mapGet mutexFinal.counters k = netCalls [⟨"a", true, 2⟩, ⟨"b", false, 1⟩] k :=
  ⟨by decide, by decide, by simp [MutexSys.allDone, mutexFinal],
    ((mutex_counters_final [⟨"a", true, 2⟩, ⟨"b", false, 1⟩] (by decide) mutexSchedule
      mutexFinal (by decide)).2.2 (by simp [MutexSys.allDone, mutexFinal])).1⟩

/-! ### AtomicCounter2.go and Mutexes2.go -/

theorem counted_sum_le (l : List APc) : (l.map counted).sum ≤ l.length := by
  induction l with
  | nil => simp
  | cons p rest ih =>
    cases p <;> simp only [List.map_cons, List.sum_cons, List.length_cons, counted] <;> omega

theorem counted_sum_done (l : List APc) (h : ∀ p ∈ l, p = APc.done) :
    (l.map counted).sum = l.length := by
  induction l with
  | nil => rfl
  | cons p rest ih =>
    have hp : p = APc.done := h p (by simp)
    subst hp
    have := ih (fun q hq => h q (by simp [hq]))
    simp only [List.map_cons, List.sum_cons, List.length_cons, counted]
    omega

theorem atomic_inv_step (n : Nat) (hn : (n : Int) < 2 ^ 63) (s s2 : AtomicSys) (g : Nat)
    (hs : s.Inv n) (h : s.step g = some s2) : s2.Inv n ∧ s2.measure < s.measure := by
  obtain ⟨hc, hl⟩ := hs
  simp only [AtomicSys.step] at h
  split at h
  · rename_i hg
    cases h
    have h1 := list_sum_map_set counted s.gs g _ APc.added hg
    have h2 := list_sum_map_set aRank s.gs g _ APc.added hg
    have h3 := counted_sum_le (s.gs.set g APc.added)
    simp only [counted, aRank, List.length_set] at h1 h2 h3
    refine ⟨⟨?_, by simpa using hl⟩, by simp only [AtomicSys.measure]; omega⟩
    simp only
    generalize (s.gs.map counted).sum = before at hc h1
    generalize ((s.gs.set g APc.added).map counted).sum = after at h1 h3 ⊢
    clear h2
    rw [hc, wrapInt64_of_range _ (by norm_num; omega) (by norm_num at hn ⊢; omega)]
    omega
  · rename_i hg
    cases h
    have h1 := list_sum_map_set counted s.gs g _ APc.done hg
    have h2 := list_sum_map_set aRank s.gs g _ APc.done hg
    simp only [counted, aRank] at h1 h2
    refine ⟨⟨?_, by simpa using hl⟩, by simp only [AtomicSys.measure]; omega⟩
    simp only
    rw [hc]
    omega
  · cases h

theorem atomic_inv_run (n : Nat) (hn : (n : Int) < 2 ^ 63) (acts : List Nat)
    (s s2 : AtomicSys) (hs : s.Inv n) (h : AtomicSys.run acts s = some s2) :
    s2.Inv n ∧ acts.length + s2.measure ≤ s.measure := by
  induction acts generalizing s with
  | nil => simp only [AtomicSys.run, Option.some.injEq] at h; subst h; exact ⟨hs, by simp⟩
  | cons a rest ih =>
    simp only [AtomicSys.run] at h
    split at h
    · rename_i u hu
      obtain ⟨h1, h2⟩ := atomic_inv_step n hn s u a hs hu
      obtain ⟨h3, h4⟩ := ih u h1 h
      exact ⟨h3, by simp only [List.length_cons]; omega⟩
    · cases h

theorem atomic_not_stuck (s : AtomicSys) (hnd : ¬ s.allDone) :
    ∃ g, (s.step g).isSome = true := by
  simp only [AtomicSys.allDone, not_forall] at hnd
  obtain ⟨p, hp, hne⟩ := hnd
  obtain ⟨g, hg⟩ := List.mem_iff_getElem?.mp hp
  refine ⟨g, ?_⟩
  cases p with
  | start => simp [AtomicSys.step, hg]
  | added => simp [AtomicSys.step, hg]
  | done => exact absurd rfl hne

theorem atomic_init (n : Nat) :
    (AtomicSys.init n).Inv n ∧ (AtomicSys.init n).measure = 2 * n := by
  refine ⟨⟨?_, by simp [AtomicSys.init]⟩, ?_⟩
  · simp [AtomicSys.init, counted]
  · simp [AtomicSys.measure, AtomicSys.init, aRank, Nat.mul_comm]

theorem mutexes2_tasks (n : Nat) :
    totalCalls (mutexes2Tasks n) = n ∧ (mutexes2Tasks n).length = n ∧
      netCalls (mutexes2Tasks n) "counter" = n ∧
      ∀ t ∈ mutexes2Tasks n, t.name ∈ ["counter"] := by
  refine ⟨?_, by simp [mutexes2Tasks], ?_, ?_⟩
  · simp [totalCalls, mutexes2Tasks]
  · simp [netCalls, mutexes2Tasks, Task.net]
  · intro t ht
    simp only [mutexes2Tasks, List.mem_replicate] at ht
    rw [ht.2]
    simp

/-- C14: for every number `n` of goroutines (below `2 ^ 63`), each incrementing
the shared counter once, and under every schedule, the execution is finite
and never stuck before all goroutines are done, and the counter read after
`wg.Wait()` is `n`: for `AtomicCounter2.go`, where the increment is one atomic
step, and for `Mutexes2.go`, where it is a read and a store under the mutex.
With `numGoroutines = 10` the final value is 10. -/
theorem shared_counter_final (n : Nat) (hn : (n : Int) < 2 ^ 63)
    (acts1 : List Nat) (s1 : AtomicSys) (h1 : AtomicSys.run acts1 (AtomicSys.init n) = some s1)
    (acts2 : List Nat) (s2 : MutexSys)
    (h2 : MutexSys.run acts2 (MutexSys.init ["counter"] (mutexes2Tasks n)) = some s2) :
    (acts1.length ≤ 2 * n ∧ (¬ s1.allDone → ∃ g, (s1.step g).isSome = true) ∧
      (s1.allDone → s1.counter = n)) ∧
    (acts2.length ≤ 5 * n ∧ (¬ s2.allDone → ∃ g, (s2.step g).isSome = true) ∧
      (s2.allDone → s2.counters = [("counter", (n : Int))])) ∧
    (n = 10 → (s1.allDone → s1.counter = 10) ∧
      (s2.allDone → s2.counters = [("counter", 10)])) := by
  obtain ⟨hi, hm⟩ := atomic_init n
  obtain ⟨⟨hc, hl⟩, hμ⟩ := atomic_inv_run n hn acts1 _ s1 hi h1
  obtain ⟨t1, t2, t3, t4⟩ := mutexes2_tasks n
  obtain ⟨m1, m2, m3, m4⟩ := mutex_runs ["counter"] (mutexes2Tasks n) (by rw [t1]; exact hn)
    acts2 s2 h2
  have hA : s1.allDone → s1.counter = n := by
    intro hd
    rw [hc, counted_sum_done _ hd, hl]
  have hM : s2.allDone → s2.counters = [("counter", (n : Int))] := by
    intro hd
    have hk := map_of_one_key s2.counters "counter" (m4 t4)
    rw [m3 hd "counter", t3] at hk
    exact hk
  refine ⟨⟨by omega, atomic_not_stuck s1, hA⟩, ⟨by rw [t1, t2] at m1; omega, m2, hM⟩, ?_⟩
  intro h10
  subst h10
  exact ⟨fun hd => by simpa using hA hd, fun hd => by simpa using hM hd⟩

/-- C14 with two goroutines, at complete schedules of both programs. -/
theorem shared_counter_final_witness :
    ((2 : Nat) : Int) < 2 ^ 63 ∧
    AtomicSys.run [1, 0, 0, 1] (AtomicSys.init 2) = some ⟨2, [.done, .done]⟩ ∧
    MutexSys.run [1, 1, 1, 1, 0, 0, 1, 0, 0, 0] (MutexSys.init ["counter"] (mutexes2Tasks 2))
      = some ⟨[("counter", 2)], none,
          [(⟨"counter", true, 1⟩, .done), (⟨"counter", true, 1⟩, .done)]⟩ ∧
    (⟨2, [.done, .done]⟩ : AtomicSys).counter = ((2 : Nat) : Int) := by
  have h := shared_counter_final 2 (by norm_num) [1, 0, 0, 1] ⟨2, [.done, .done]⟩ (by decide)
    [1, 1, 1, 1, 0, 0, 1, 0, 0, 0]
    ⟨[("counter", 2)], none, [(⟨"counter", true, 1⟩, .done), (⟨"counter", true, 1⟩, .done)]⟩
    (by decide)
  exact ⟨by norm_num, by decide, by decide, h.1.2.2 (by simp [AtomicSys.allDone])⟩

end GoLearn
